import Mathlib

/-!
# Verification of the DSA exercises

Shallow embedding of the JavaScript sources

* `Arrays/remove-duplicates/removeDuplicates.js`
* `Arrays/sliding-window/max-sub-arr.js`
* `Arrays/two-pointer/isPalindrome.js`
* `Arrays/zeros-to-end/zerosToEnd.js`
* `Sorting/bubble-sort/bubble-sort.js`

Conventions of the embedding.

* A JavaScript array of integers is a `List Int`; a string is the list of its
  code units.  Comparing elements and moving them is exact, and so is stepping
  an index that stays within the length of an array.
* `maxSubArray` adds and subtracts elements and counts up to its argument `k`.
  Its arithmetic is the binary64 arithmetic of JavaScript on integers:
  results are rounded to 53 significant bits and overflow to an infinity.
* A value that can be something other than a finite integer (`undefined`,
  `NaN`, an infinity) is a `JsValue`.
* Every loop is a recursive function over an explicit loop state which tests
  the source's loop condition before each iteration.  The recursion is
  structural on an iteration budget; `none` means that the budget ran out
  before the loop condition became false.  The theorems show that the budget
  handed over by the entry points is always sufficient.
-/

namespace DSA

/-! ## JavaScript numbers

A JavaScript number is an IEEE 754 binary64 value.  The sources compute with
integers only, so the finite numbers that occur are integers; every integer of
magnitude at most `2 ^ 53` is a number, a larger one only when it fits 53
significant bits.  The result of `+` and `-` is the exact result rounded to
the nearest number, ties going to the even significand, and `Infinity` or
`-Infinity` when the rounded magnitude reaches `2 ^ 1024`.  The two zeros are
one value here: they compare equal, and a sum that starts from `0` never
yields `-0`. -/

/-- The number `2 ^ 53`: up to this magnitude every integer is a number. -/
def twoPow53 : Nat := 9007199254740992

/-- The number `Number.MAX_SAFE_INTEGER`, `2 ^ 53 - 1`. -/
def maxSafeInteger : Nat := 9007199254740991

/-- The magnitude `2 ^ 1024`, from which on a rounded result is an infinity. -/
def twoPow1024 : Nat := (2 ^ 256) ^ 4

/-- The spacing of the numbers around `n ≥ 2 ^ 53`: the power of two `u` with
`2 ^ 52 * u ≤ n < 2 ^ 53 * u`, found by doubling `u` from `1` (started with
`fuel = n`, which is more doublings than are needed). -/
def ulpSearch : Nat → Nat → Nat → Nat
  | 0, _, u => u
  | fuel + 1, n, u => if n < twoPow53 * u then u else ulpSearch fuel n (2 * u)

/-- The natural number `n` rounded to 53 significant bits, to nearest, ties to
the even significand. -/
def roundNat (n : Nat) : Nat :=
  if n ≤ twoPow53 then n
  else
    let u := ulpSearch n n 1
    let q := n / u
    let r := n % u
    if 2 * r < u then q * u
    else if u < 2 * r then (q + 1) * u
    else if q % 2 = 0 then q * u
    else (q + 1) * u

/-- The integer `x` rounded to 53 significant bits (rounding is symmetric in
the sign). -/
def round64 (x : Int) : Int :=
  if x < 0 then -((roundNat x.natAbs : Nat) : Int) else ((roundNat x.natAbs : Nat) : Int)

/-- The integer `x` is a finite JavaScript number: rounding leaves it alone and
its magnitude is below `2 ^ 1024`. -/
def IsJsInteger (x : Int) : Prop := round64 x = x ∧ x.natAbs < twoPow1024

instance (x : Int) : Decidable (IsJsInteger x) :=
  inferInstanceAs (Decidable (round64 x = x ∧ x.natAbs < twoPow1024))

/-! ## JavaScript values -/

/-- The JavaScript values that occur in the modelled functions: `undefined`
(a missing return value, a read outside of an array), a finite number with an
integer value, `Infinity` or `-Infinity`, and `NaN`. -/
inductive JsValue where
  | undefined
  | number (n : Int)
  | infinity (negative : Bool)
  | nan
  deriving DecidableEq

namespace JsValue

/-- The number that an arithmetic operation with the exact integer result `x`
yields: `x` rounded, or an infinity on overflow. -/
def ofInt (x : Int) : JsValue :=
  if (round64 x).natAbs < twoPow1024 then number (round64 x) else infinity (decide (x < 0))

/-- Numeric `a + b`.  An operand that is `undefined` or `NaN` makes the result
`NaN`, and so does the sum of the two different infinities. -/
def add : JsValue → JsValue → JsValue
  | number a, number b => ofInt (a + b)
  | number _, infinity s => infinity s
  | infinity s, number _ => infinity s
  | infinity s, infinity t => if s = t then infinity s else nan
  | _, _ => nan

/-- Numeric `a - b`.  An operand that is `undefined` or `NaN` makes the result
`NaN`, and so does the difference of two equal infinities. -/
def sub : JsValue → JsValue → JsValue
  | number a, number b => ofInt (a - b)
  | number _, infinity s => infinity (!s)
  | infinity s, number _ => infinity s
  | infinity s, infinity t => if s = t then nan else infinity s
  | _, _ => nan

/-- Relational `a > b`: false as soon as an operand is `undefined` or `NaN`. -/
def gt : JsValue → JsValue → Bool
  | number a, number b => decide (a > b)
  | number _, infinity s => s
  | infinity s, number _ => !s
  | infinity s, infinity t => !s && t
  | _, _ => false

end JsValue

/-- Property read `arr[i]` for an arbitrary integer index: the element when
`0 ≤ i < arr.length`, `undefined` otherwise. -/
def jsGet (arr : List Int) (i : Int) : JsValue :=
  if 0 ≤ i then
    match arr[i.toNat]? with
    | some v => JsValue.number v
    | none => JsValue.undefined
  else JsValue.undefined

/-! ## removeDuplicates -/

/-- The `for (readIndex = 1; readIndex < arr.length; readIndex++)` loop of
`removeDuplicates`, on the state `(arr, writeIndex, readIndex)`.  The returned
pair is the array and `writeIndex` at loop exit.

The source assigns `readIndex` without declaring it; in a non-strict script it
is then a property of the global object, which this single call reads and
writes like a local variable.

Both reads are inside the array (`readIndex < arr.length` is the loop
condition and `readIndex` starts at `1`).  The assignment
`arr[writeIndex] = arr[readIndex]` is `List.set`; it stays inside the array
because `writeIndex ≤ readIndex` throughout (`removeDuplicatesLoop_spec`). -/
def removeDuplicatesLoop (fuel : Nat) (arr : List Int) (writeIndex readIndex : Nat) :
    Option (List Int × Nat) :=
  if h : readIndex < arr.length then
    match fuel with
    | 0 => none
    | fuel + 1 =>
      if arr[readIndex] ≠ arr[readIndex - 1] then
        removeDuplicatesLoop fuel (arr.set writeIndex arr[readIndex]) (writeIndex + 1)
          (readIndex + 1)
      else
        removeDuplicatesLoop fuel arr writeIndex (readIndex + 1)
  else some (arr, writeIndex)

/-- Model of `removeDuplicates(arr)`: the array as the call leaves it, and the
returned value.  The empty array is left alone and the bare `return;` yields
`undefined`.  Otherwise the loop runs from `writeIndex = 1`, `readIndex = 1`,
then `arr.length = writeIndex` truncates the array and `writeIndex` is
returned. -/
def removeDuplicates (arr : List Int) : Option (List Int × JsValue) :=
  if arr.length = 0 then some (arr, JsValue.undefined)
  else
    match removeDuplicatesLoop arr.length arr 1 1 with
    | none => none
    | some (arr1, writeIndex) => some (arr1.take writeIndex, JsValue.number writeIndex)

/-- The result of the scan as a function of the original array: the value
`prev` at the position before the read cursor and the elements `rest` from the
read cursor on; an element is kept when it differs from its predecessor. -/
def keepChanges : Int → List Int → List Int
  | _, [] => []
  | prev, x :: rest => if x ≠ prev then x :: keepChanges x rest else keepChanges x rest

/-- Specification side: the distinct values of a list, each once, in the order
of their first occurrence. -/
def firstOccurrences : List Int → List Int
  | [] => []
  | x :: rest => x :: (firstOccurrences rest).filter (fun y => decide (y ≠ x))

/-- Specification side: the number of distinct values occurring in a list. -/
def distinctCount (S : List Int) : Nat := S.toFinset.card

/-- One iteration of the loop of `removeDuplicates` from the state
`(arr, writeIndex, readIndex)`: the loop condition, the body and the increment
of `readIndex`.  The value is `none` when the loop condition is false. -/
def removeDuplicatesStep (arr : List Int) (writeIndex readIndex : Nat) :
    Option (List Int × Nat × Nat) :=
  if h : readIndex < arr.length then
    if arr[readIndex] ≠ arr[readIndex - 1] then
      some (arr.set writeIndex arr[readIndex], writeIndex + 1, readIndex + 1)
    else
      some (arr, writeIndex, readIndex + 1)
  else none

/-- The state `(arr, writeIndex, readIndex)` of `removeDuplicates` on a
non-empty array `S` after `n` iterations of its loop; `none` when the loop has
ended before. -/
def removeDuplicatesStateAfter (S : List Int) : Nat → Option (List Int × Nat × Nat)
  | 0 => some (S, 1, 1)
  | n + 1 =>
    match removeDuplicatesStateAfter S n with
    | none => none
    | some (arr, writeIndex, readIndex) => removeDuplicatesStep arr writeIndex readIndex

/-- Specification side: the pure function that keeps `S[0]` and every `S[i]`,
`i ≥ 1`, that differs from `S[i - 1]`. -/
def keepDifferentFromPrevious (S : List Int) : List Int :=
  (List.range S.length).filterMap
    (fun i => if i = 0 ∨ S[i]? ≠ S[i - 1]? then S[i]? else none)

/-! ## maxSubArray -/

/-- Modelled from the spec: the error taxonomy of section 7.  The source
declares no error type and contains no `throw` statement. -/
inductive ErrorKind where
  | InvalidArgument
  deriving DecidableEq

/-- The first loop of `maxSubArray`, `for (let i = 0; i < k; i++) maxSum += arr[i]`,
on the state `(i, maxSum)`.  The counter is a number like any other: `i++` is
`i + 1` rounded, which stops changing `i` at `2 ^ 53`. -/
def maxSubArraySumLoop (arr : List Int) (k : Int) (fuel : Nat) (i : Int) (maxSum : JsValue) :
    Option JsValue :=
  if i < k then
    match fuel with
    | 0 => none
    | fuel + 1 => maxSubArraySumLoop arr k fuel (round64 (i + 1)) (maxSum.add (jsGet arr i))
  else some maxSum

/-- The second loop of `maxSubArray`,
`for (let i = k; i < arr.length; i++) { windowSum = windowSum - arr[i - k] + arr[i]; ... }`,
on the state `(i, windowSum, maxSum)`; the value at loop exit is `maxSum`.
The index `i - k` and the increment `i++` are rounded like every result; an
index whose magnitude would overflow is far outside the array either way and
reads `undefined`. -/
def maxSubArraySlideLoop (arr : List Int) (k : Int) (fuel : Nat) (i : Int)
    (windowSum maxSum : JsValue) : Option JsValue :=
  if i < (arr.length : Int) then
    match fuel with
    | 0 => none
    | fuel + 1 =>
      let windowSum1 := (windowSum.sub (jsGet arr (round64 (i - k)))).add (jsGet arr i)
      if windowSum1.gt maxSum then
        maxSubArraySlideLoop arr k fuel (round64 (i + 1)) windowSum1 windowSum1
      else
        maxSubArraySlideLoop arr k fuel (round64 (i + 1)) windowSum1 maxSum
  else some maxSum

/-- How a call completes: it returns a value, or it fails with a typed error
(a thrown exception in JavaScript). -/
inductive Outcome where
  | returned (v : JsValue)
  | failed (e : ErrorKind)
  deriving DecidableEq

/-- Model of `maxSubArray(arr, k)` for an array of finite integer numbers and a
number `k`.  The source checks nothing and throws nothing, so every completed
call is `Outcome.returned` of the value of `maxSum` after the second loop.
The budgets `k` and `arr.length - k` are the iteration counts of loops whose
counter advances by one; a loop whose counter stops advancing does not end,
and its budget runs out. -/
def maxSubArray (arr : List Int) (k : Int) : Option Outcome :=
  match maxSubArraySumLoop arr k k.toNat 0 (JsValue.number 0) with
  | none => none
  | some maxSum =>
    match maxSubArraySlideLoop arr k ((arr.length : Int) - k).toNat k maxSum maxSum with
    | none => none
    | some result => some (Outcome.returned result)

/-- Specification side: the sum of the `k` contiguous elements `S[i..i+k)`. -/
def windowSumAt (S : List Int) (i k : Nat) : Int := ((S.drop i).take k).sum

/-! ## isPalindrom -/

/-- Property read `str[i]` for an arbitrary integer index; `none` stands for
`undefined`. -/
def jsAt {α : Type} (str : List α) (i : Int) : Option α :=
  if 0 ≤ i then str[i.toNat]? else none

/-- The `while (left < right)` loop of `isPalindrom` on the state
`(left, right)`; the result is the returned boolean. -/
def isPalindromLoop {α : Type} [DecidableEq α] (str : List α) (fuel : Nat) (left right : Int) :
    Option Bool :=
  if left < right then
    match fuel with
    | 0 => none
    | fuel + 1 =>
      if jsAt str left ≠ jsAt str right then some false
      else isPalindromLoop str fuel (left + 1) (right - 1)
  else some true

/-- Model of `isPalindrom(str)`: the cursors start at `0` and
`str.length - 1`. -/
def isPalindrom {α : Type} [DecidableEq α] (str : List α) : Option Bool :=
  isPalindromLoop str str.length 0 ((str.length : Int) - 1)

/-! ## zerosToEnd -/

/-- The first loop of `zerosToEnd`,
`for (let readIndex = 0; readIndex < arr.length; readIndex++)`, on the state
`(arr, writeIndex, readIndex)`; the returned pair is the array and `writeIndex`
at loop exit.  The read is inside the array by the loop condition, and the
assignment `arr[writeIndex] = arr[readIndex]` is `List.set`; it stays inside
the array because `writeIndex ≤ readIndex` throughout
(`zerosToEndCompactLoop_spec`). -/
def zerosToEndCompactLoop (fuel : Nat) (arr : List Int) (writeIndex readIndex : Nat) :
    Option (List Int × Nat) :=
  if h : readIndex < arr.length then
    match fuel with
    | 0 => none
    | fuel + 1 =>
      if arr[readIndex] ≠ 0 then
        zerosToEndCompactLoop fuel (arr.set writeIndex arr[readIndex]) (writeIndex + 1)
          (readIndex + 1)
      else
        zerosToEndCompactLoop fuel arr writeIndex (readIndex + 1)
  else some (arr, writeIndex)

/-- The second loop of `zerosToEnd`,
`while (writeIndex < arr.length) { arr[writeIndex] = 0; writeIndex++; }`, on the
state `(arr, writeIndex)`. -/
def zerosToEndFillLoop (fuel : Nat) (arr : List Int) (writeIndex : Nat) : Option (List Int) :=
  if writeIndex < arr.length then
    match fuel with
    | 0 => none
    | fuel + 1 => zerosToEndFillLoop fuel (arr.set writeIndex 0) (writeIndex + 1)
  else some arr

/-- Model of `zerosToEnd(arr)`: the array as the call leaves it (the function
returns nothing). -/
def zerosToEnd (arr : List Int) : Option (List Int) :=
  match zerosToEndCompactLoop arr.length arr 0 0 with
  | none => none
  | some (arr1, writeIndex) => zerosToEndFillLoop arr1.length arr1 writeIndex

/-! ## bubbleSort -/

/-- The inner loop of `bubbleSort`,
`for (let j = 0; j < arrLen - 1 - i; j++) { if (arr[j] > arr[j + 1]) { swap; swapped = true; } }`,
on the state `(arr, swapped, j)`.

The test `arr[j] > arr[j + 1]` compares the numeric values of the two
elements; `key` gives that value (for an array of numbers it is the element
itself).  A read outside the array is `undefined`, for which `>` is false, so
nothing is swapped then.  The destructuring swap is two `List.set`s, both
inside the array because both reads succeeded.

The component `swaps` is not a variable of the source: it counts how often
the swap branch is taken. -/
def bubbleSortInnerLoop {α : Type} (key : α → Int) (arrLen i : Nat) (fuel : Nat)
    (arr : List α) (swapped : Bool) (swaps : Nat) (j : Nat) : Option (List α × Bool × Nat) :=
  if (j : Int) < (arrLen : Int) - 1 - (i : Int) then
    match fuel with
    | 0 => none
    | fuel + 1 =>
      match arr[j]?, arr[j + 1]? with
      | some a, some b =>
        if key a > key b then
          bubbleSortInnerLoop key arrLen i fuel ((arr.set j b).set (j + 1) a) true (swaps + 1)
            (j + 1)
        else
          bubbleSortInnerLoop key arrLen i fuel arr swapped swaps (j + 1)
      | _, _ => bubbleSortInnerLoop key arrLen i fuel arr swapped swaps (j + 1)
  else some (arr, swapped, swaps)

/-- The outer loop of `bubbleSort`, `for (let i = 0; i < arrLen - 1; i++)`, on
the state `(arr, i)`.  Each pass starts with `swapped = false`, runs the inner
loop from `j = 0`, and leaves the outer loop when nothing was swapped.

The result is the final array together with a record of the passes that were
run, in order: for each pass the array after it and its number of swaps.  The
record is not data of the source. -/
def bubbleSortOuterLoop {α : Type} (key : α → Int) (arrLen : Nat) (fuel : Nat)
    (arr : List α) (i : Nat) : Option (List α × List (List α × Nat)) :=
  if (i : Int) < (arrLen : Int) - 1 then
    match fuel with
    | 0 => none
    | fuel + 1 =>
      match bubbleSortInnerLoop key arrLen i arrLen arr false 0 0 with
      | none => none
      | some (arr1, swapped, swaps) =>
        if !swapped then some (arr1, [(arr1, swaps)])
        else
          match bubbleSortOuterLoop key arrLen fuel arr1 (i + 1) with
          | none => none
          | some (out, passes) => some (out, (arr1, swaps) :: passes)
  else some (arr, [])

/-- Model of `bubbleSort(arr)` for elements whose numeric value is `key`: the
array as the call leaves it (the function returns nothing and prints the
array), and the record of the passes. -/
def bubbleSortBy {α : Type} (key : α → Int) (arr : List α) :
    Option (List α × List (List α × Nat)) :=
  bubbleSortOuterLoop key arr.length arr.length arr 0

/-- Model of `bubbleSort(arr)` on an array of integers. -/
def bubbleSort (arr : List Int) : Option (List Int × List (List Int × Nat)) :=
  bubbleSortBy (fun x => x) arr

/-- Specification side: the outer loop of `bubbleSort` with the
`if (!swapped) break` test removed, so that it runs every pass. -/
def bubbleSortAllPassesLoop {α : Type} (key : α → Int) (arrLen : Nat) (fuel : Nat)
    (arr : List α) (i : Nat) : Option (List α) :=
  if (i : Int) < (arrLen : Int) - 1 then
    match fuel with
    | 0 => none
    | fuel + 1 =>
      match bubbleSortInnerLoop key arrLen i arrLen arr false 0 0 with
      | none => none
      | some (arr1, _, _) => bubbleSortAllPassesLoop key arrLen fuel arr1 (i + 1)
  else some arr

/-- Specification side: `bubbleSort` without the early exit, running all
`length - 1` passes. -/
def bubbleSortAllPasses (arr : List Int) : Option (List Int) :=
  bubbleSortAllPassesLoop (fun x => x) arr.length arr.length arr 0

/-- One pass seen on the list: the element `a` is carried to the right through
`rest`, being left behind whenever the next element is not smaller. -/
def bubbleUp {α : Type} (key : α → Int) : α → List α → List α
  | a, [] => [a]
  | a, b :: rest =>
    if key a > key b then b :: bubbleUp key a rest else a :: bubbleUp key b rest

/-- The number of swaps of one pass seen on the list. -/
def bubbleUpSwaps {α : Type} (key : α → Int) : α → List α → Nat
  | _, [] => 0
  | a, b :: rest =>
    if key a > key b then bubbleUpSwaps key a rest + 1 else bubbleUpSwaps key b rest

/-! ## The demo calls of the sources -/

theorem removeDuplicates_demo :
    removeDuplicates [1, 1, 2, 2, 3, 4, 4, 5] = some ([1, 2, 3, 4, 5], JsValue.number 5) := by
  decide

theorem maxSubArray_demo :
    maxSubArray [1, 2, 3, 4, 5, 1, 2, 3] 3 = some (Outcome.returned (JsValue.number 12)) := by
  decide

/-- Rounding at work: `2 ^ 53 + 1` is not a number, and a counter at
`-(2 ^ 53 + 4)` or at `2 ^ 53` is not changed by `i++`. -/
theorem round64_demo :
    round64 9007199254740993 = 9007199254740992
    ∧ round64 9007199254740995 = 9007199254740996
    ∧ round64 (-9007199254740996 + 1) = -9007199254740996
    ∧ round64 (9007199254740992 + 1) = 9007199254740992 := by
  decide

theorem zerosToEnd_demo :
    zerosToEnd [0, 1, 0, 2, 3, 0, 4, 0, 5] = some [1, 2, 3, 4, 5, 0, 0, 0, 0] := by
  decide

theorem bubbleSort_demo :
    bubbleSort [3, 1, 2] = some ([1, 2, 3], [([1, 2, 3], 2), ([1, 2, 3], 0)])
    ∧ bubbleSort [2, 3, 1] = some ([1, 2, 3], [([2, 1, 3], 1), ([1, 2, 3], 1)])
    ∧ bubbleSortAllPasses [3, 1, 2] = some [1, 2, 3] := by
  decide

theorem bubbleSortBy_demo :
    (bubbleSortBy Prod.fst [((2 : Int), 'a'), (1, 'b'), (2, 'c'), (1, 'd')]).map Prod.fst
      = some [(1, 'b'), (1, 'd'), (2, 'a'), (2, 'c')] := by
  decide

theorem isPalindrom_demo :
    isPalindrom "racecar".toList = some true ∧ isPalindrom "hello".toList = some false := by
  decide

/-! ## removeDuplicates: the scan -/

theorem take_succ_set (arr : List Int) (w : Nat) (x : Int) (hw : w < arr.length) :
    (arr.set w x).take (w + 1) = arr.take w ++ [x] := by
  rw [List.set_eq_take_append_cons_drop, if_pos hw]
  have hlen : (arr.take w).length = w := by
    rw [List.length_take]; omega
  rw [List.take_append_eq_append_take, hlen]
  have h1 : (arr.take w).take (w + 1) = arr.take w := by
    apply List.take_of_length_le; omega
  rw [h1]
  simp

/-- Loop invariant of the scan, in closed form.  From a state with
`writeIndex ≤ readIndex` in which position `readIndex - 1` holds `prev`, the
loop ends with `writeIndex` advanced by the number of kept elements, and the
first `writeIndex` positions hold the old first `writeIndex` positions
followed by the kept elements. -/
theorem removeDuplicatesLoop_spec (fuel : Nat) :
    ∀ (arr : List Int) (w r : Nat) (prev : Int),
      1 ≤ r → w ≤ r → r ≤ arr.length → arr.length - r ≤ fuel →
      arr[r - 1]? = some prev →
      ∃ arr1, removeDuplicatesLoop fuel arr w r
          = some (arr1, w + (keepChanges prev (arr.drop r)).length)
        ∧ arr1.take (w + (keepChanges prev (arr.drop r)).length)
          = arr.take w ++ keepChanges prev (arr.drop r) := by
  induction fuel with
  | zero =>
    intro arr w r prev _ _ hr hfuel _
    have hrl : r = arr.length := by omega
    refine ⟨arr, ?_, ?_⟩
    · unfold removeDuplicatesLoop
      simp [hrl, keepChanges]
    · simp [hrl, keepChanges]
  | succ fuel ih =>
    intro arr w r prev h1 hwr hr hfuel hprev
    unfold removeDuplicatesLoop
    by_cases h : r < arr.length
    · have hp : arr[r - 1] = prev := by
        have hlt : r - 1 < arr.length := by omega
        rw [List.getElem?_eq_getElem hlt] at hprev
        exact Option.some.inj hprev
      have hdrop : arr.drop r = arr[r] :: arr.drop (r + 1) := List.drop_eq_getElem_cons h
      simp only [h, dite_true, hp]
      by_cases hx : arr[r] = prev
      · simp only [hx, ne_eq, not_true_eq_false, if_false]
        have hget : arr[r + 1 - 1]? = some prev := by
          simp only [Nat.add_sub_cancel]
          rw [List.getElem?_eq_getElem h, hx]
        obtain ⟨arr1, e1, e2⟩ := ih arr w (r + 1) prev (by omega) (by omega) (by omega)
          (by omega) hget
        refine ⟨arr1, ?_, ?_⟩
        · rw [e1, hdrop]; simp [keepChanges, hx]
        · rw [hdrop]; simp only [keepChanges, hx, ne_eq, not_true_eq_false, if_false]
          rw [← hx]; rw [← hx] at e2; exact e2
      · simp only [ne_eq, hx, not_false_eq_true, if_true]
        have hw : w < arr.length := by omega
        have hget : (arr.set w arr[r])[r + 1 - 1]? = some arr[r] := by
          simp only [Nat.add_sub_cancel]
          rw [List.getElem?_set]
          by_cases hwr2 : w = r
          · simp [hwr2, h]
          · simp [hwr2, List.getElem?_eq_getElem h]
        obtain ⟨arr1, e1, e2⟩ := ih (arr.set w arr[r]) (w + 1) (r + 1) arr[r] (by omega)
          (by omega) (by simp; omega) (by simp; omega) hget
        have hd : (arr.set w arr[r]).drop (r + 1) = arr.drop (r + 1) :=
          List.drop_set_of_lt _ _ (by omega)
        rw [hd] at e1 e2
        rw [take_succ_set arr w _ hw] at e2
        have hk : keepChanges prev (arr.drop r)
            = arr[r] :: keepChanges arr[r] (arr.drop (r + 1)) := by
          rw [hdrop]; simp [keepChanges, hx]
        refine ⟨arr1, ?_, ?_⟩
        · rw [e1, hk]; simp only [List.length_cons]
          congr 2; omega
        · rw [hk]; simp only [List.length_cons]
          have : w + ((keepChanges arr[r] (arr.drop (r + 1))).length + 1)
              = w + 1 + (keepChanges arr[r] (arr.drop (r + 1))).length := by omega
          rw [this, e2]; simp
    · have hrl : r = arr.length := by omega
      refine ⟨arr, ?_, ?_⟩
      · simp [hrl, keepChanges]
      · simp [hrl, keepChanges]

/-- Closed form of `removeDuplicates` on a non-empty array, sorted or not: the
first element stays, and an element stays when it differs from its
predecessor in the original array. -/
theorem removeDuplicates_cons (x : Int) (xs : List Int) :
    removeDuplicates (x :: xs)
      = some (x :: keepChanges x xs, JsValue.number ((keepChanges x xs).length + 1 : Nat)) := by
  obtain ⟨arr1, e1, e2⟩ := removeDuplicatesLoop_spec (x :: xs).length (x :: xs) 1 1 x
    (by omega) (by omega) (by simp) (by simp) (by simp)
  simp only [List.drop_succ_cons, List.drop_zero] at e1 e2
  unfold removeDuplicates
  simp only [List.length_cons, Nat.add_one_ne_zero, if_false]
  simp only [List.length_cons] at e1
  rw [e1]
  simp only [e2]
  simp [Nat.add_comm]

/-! ## removeDuplicates: what the scan keeps -/

theorem mem_of_mem_keepChanges (xs : List Int) :
    ∀ (prev y : Int), y ∈ keepChanges prev xs → y ∈ xs := by
  induction xs with
  | nil => intro prev y h; simp [keepChanges] at h
  | cons x rest ih =>
    intro prev y h
    unfold keepChanges at h
    by_cases hx : x = prev
    · simp only [hx, ne_eq, not_true_eq_false, if_false] at h
      exact List.mem_cons_of_mem _ (ih _ _ (hx ▸ h))
    · simp only [ne_eq, hx, not_false_eq_true, if_true, List.mem_cons] at h
      rcases h with h | h
      · simp [h]
      · exact List.mem_cons_of_mem _ (ih _ _ h)

theorem mem_keepChanges_of_mem (xs : List Int) :
    ∀ (prev y : Int), y ∈ xs → y = prev ∨ y ∈ keepChanges prev xs := by
  induction xs with
  | nil => intro prev y h; simp at h
  | cons x rest ih =>
    intro prev y h
    unfold keepChanges
    by_cases hx : x = prev
    · simp only [hx, ne_eq, not_true_eq_false, if_false]
      rcases List.mem_cons.mp h with h | h
      · left; rw [h, hx]
      · exact ih prev y h
    · simp only [ne_eq, hx, not_false_eq_true, if_true, List.mem_cons]
      rcases List.mem_cons.mp h with h | h
      · right; left; exact h
      · rcases ih x y h with h2 | h2
        · right; left; exact h2
        · right; right; exact h2

theorem sorted_lt_keepChanges (xs : List Int) :
    ∀ prev : Int, (prev :: xs).Sorted (· ≤ ·) → (prev :: keepChanges prev xs).Sorted (· < ·) := by
  induction xs with
  | nil => intro prev _; simp [keepChanges]
  | cons x rest ih =>
    intro prev hs
    have hs2 : (x :: rest).Sorted (· ≤ ·) := (List.sorted_cons.mp hs).2
    have hle : ∀ b ∈ x :: rest, prev ≤ b := (List.sorted_cons.mp hs).1
    unfold keepChanges
    by_cases hx : x = prev
    · simp only [hx, ne_eq, not_true_eq_false, if_false]
      exact ih prev (hx ▸ hs2)
    · simp only [ne_eq, hx, not_false_eq_true, if_true]
      have hlt : prev < x := lt_of_le_of_ne (hle x (List.mem_cons_self _ _)) (Ne.symm hx)
      refine List.sorted_cons.mpr ⟨?_, ih x hs2⟩
      intro b hb
      rcases List.mem_cons.mp hb with hb | hb
      · rw [hb]; exact hlt
      · have hb2 : b ∈ rest := mem_of_mem_keepChanges rest x b hb
        exact lt_of_lt_of_le hlt ((List.sorted_cons.mp hs2).1 b hb2)

theorem mem_of_mem_firstOccurrences (xs : List Int) :
    ∀ y : Int, y ∈ firstOccurrences xs → y ∈ xs := by
  induction xs with
  | nil => intro y h; simp [firstOccurrences] at h
  | cons x rest ih =>
    intro y h
    unfold firstOccurrences at h
    rcases List.mem_cons.mp h with h | h
    · simp [h]
    · exact List.mem_cons_of_mem _ (ih y (List.mem_filter.mp h).1)

theorem keepChanges_eq_firstOccurrences (xs : List Int) :
    ∀ prev : Int, (prev :: xs).Sorted (· ≤ ·) →
      keepChanges prev xs = (firstOccurrences xs).filter (fun y => decide (y ≠ prev)) := by
  induction xs with
  | nil => intro prev _; simp [keepChanges, firstOccurrences]
  | cons x rest ih =>
    intro prev hs
    have hs2 : (x :: rest).Sorted (· ≤ ·) := (List.sorted_cons.mp hs).2
    have hle : ∀ b ∈ x :: rest, prev ≤ b := (List.sorted_cons.mp hs).1
    unfold keepChanges firstOccurrences
    by_cases hx : x = prev
    · simp only [hx, ne_eq, not_true_eq_false, if_false]
      rw [ih prev (hx ▸ hs2)]
      simp [List.filter_cons, List.filter_filter]
    · simp only [ne_eq, hx, not_false_eq_true, if_true]
      have hlt : prev < x := lt_of_le_of_ne (hle x (List.mem_cons_self _ _)) (Ne.symm hx)
      rw [ih x hs2]
      rw [List.filter_cons]
      simp only [ne_eq, hx, not_false_eq_true, decide_True, if_true]
      congr 1
      symm
      apply List.filter_eq_self.mpr
      intro b hb
      have hb1 : b ∈ rest := mem_of_mem_firstOccurrences rest b (List.mem_filter.mp hb).1
      have : x ≤ b := (List.sorted_cons.mp hs2).1 b hb1
      have : b ≠ prev := by omega
      simp [this]

theorem keepChanges_idem (xs : List Int) :
    ∀ prev : Int, keepChanges prev (keepChanges prev xs) = keepChanges prev xs := by
  induction xs with
  | nil => intro prev; simp [keepChanges]
  | cons x rest ih =>
    intro prev
    by_cases hx : x = prev
    · have e : keepChanges prev (x :: rest) = keepChanges prev rest := by
        simp [keepChanges, hx]
      rw [e]; exact ih prev
    · have e : keepChanges prev (x :: rest) = x :: keepChanges x rest := by
        simp [keepChanges, hx]
      rw [e]
      have e2 : keepChanges prev (x :: keepChanges x rest)
          = x :: keepChanges x (keepChanges x rest) := by
        simp [keepChanges, hx]
      rw [e2, ih x]

theorem distinctCount_cons_sorted (x : Int) (xs : List Int) (hs : (x :: xs).Sorted (· ≤ ·)) :
    distinctCount (x :: xs) = (keepChanges x xs).length + 1 := by
  have hnd : (x :: keepChanges x xs).Nodup := (sorted_lt_keepChanges xs x hs).nodup
  have hset : (x :: xs).toFinset = (x :: keepChanges x xs).toFinset := by
    ext y
    simp only [List.mem_toFinset, List.mem_cons]
    constructor
    · rintro (h | h)
      · left; exact h
      · rcases mem_keepChanges_of_mem xs x y h with h2 | h2
        · left; exact h2
        · right; exact h2
    · rintro (h | h)
      · left; exact h
      · right; exact mem_of_mem_keepChanges xs x y h
  unfold distinctCount
  rw [hset, List.toFinset_card_of_nodup hnd]
  simp

/-! ## maxSubArray: rounding -/

theorem maxSafeInteger_lt_twoPow53 : maxSafeInteger < twoPow53 := by decide

theorem twoPow53_lt_twoPow1024 : twoPow53 < twoPow1024 := by decide

theorem roundNat_of_le (n : Nat) (h : n ≤ twoPow53) : roundNat n = n := by
  unfold roundNat
  simp [h]

/-- An integer of magnitude at most `2 ^ 53` is a number: rounding leaves it
alone. -/
theorem round64_of_natAbs_le (x : Int) (h : x.natAbs ≤ twoPow53) : round64 x = x := by
  unfold round64
  rw [roundNat_of_le _ h]
  by_cases hx : x < 0
  · rw [if_pos hx]; omega
  · rw [if_neg hx]; omega

theorem round64_neg (x : Int) : round64 (-x) = -round64 x := by
  unfold round64
  rw [Int.natAbs_neg]
  by_cases h1 : x < 0
  · have h2 : ¬ (-x < 0) := by omega
    rw [if_pos h1, if_neg h2, Int.neg_neg]
  · by_cases h0 : x = 0
    · subst h0
      simp [roundNat_of_le 0 (Nat.zero_le _)]
    · have h2 : -x < 0 := by omega
      rw [if_neg h1, if_pos h2]

theorem JsValue.ofInt_of_natAbs_le (x : Int) (h : x.natAbs ≤ twoPow53) :
    JsValue.ofInt x = JsValue.number x := by
  unfold JsValue.ofInt
  rw [round64_of_natAbs_le x h]
  have := twoPow53_lt_twoPow1024
  rw [if_pos (by omega)]

/-- A safe integer is a number. -/
theorem JsValue.ofInt_of_safe (x : Int) (h : x.natAbs ≤ maxSafeInteger) :
    JsValue.ofInt x = JsValue.number x :=
  JsValue.ofInt_of_natAbs_le x (by have := maxSafeInteger_lt_twoPow53; omega)

/-- The negative of a number is a number. -/
theorem JsValue.ofInt_neg_of_isJsInteger (a : Int) (h : IsJsInteger a) :
    JsValue.ofInt (0 - a) = JsValue.number (-a) := by
  unfold JsValue.ofInt
  rw [Int.zero_sub, round64_neg, h.1, Int.natAbs_neg, if_pos h.2]

/-- Stepping a counter that stays within `2 ^ 53` is exact. -/
theorem round64_succ (i : Int) (h1 : -(twoPow53 : Int) ≤ i + 1) (h2 : i + 1 ≤ (twoPow53 : Int)) :
    round64 (i + 1) = i + 1 :=
  round64_of_natAbs_le _ (by omega)

theorem length_le_twoPow53 (S : List Int) (h : S.length < 2 ^ 32) : S.length ≤ twoPow53 := by
  have h32 : (2 : Nat) ^ 32 = 4294967296 := by norm_num
  rw [h32] at h
  unfold twoPow53
  omega

/-! ## maxSubArray: reads and window sums -/

theorem jsGet_of_lt (arr : List Int) (i : Nat) (h : i < arr.length) :
    jsGet arr (i : Int) = JsValue.number arr[i] := by
  unfold jsGet
  simp [List.getElem?_eq_getElem h]

theorem jsGet_of_neg (arr : List Int) (i : Int) (h : i < 0) :
    jsGet arr i = JsValue.undefined := by
  unfold jsGet
  have : ¬ (0 ≤ i) := by omega
  simp [this]

theorem jsGet_of_ge (arr : List Int) (i : Nat) (h : arr.length ≤ i) :
    jsGet arr (i : Int) = JsValue.undefined := by
  unfold jsGet
  simp [List.getElem?_eq_none h]

theorem windowSumAt_zero (S : List Int) (i : Nat) : windowSumAt S i 0 = 0 := by
  simp [windowSumAt]

theorem windowSumAt_succ_left (S : List Int) (i m : Nat) (h : i < S.length) :
    windowSumAt S i (m + 1) = S[i] + windowSumAt S (i + 1) m := by
  unfold windowSumAt
  rw [List.drop_eq_getElem_cons h, List.take_succ_cons, List.sum_cons]

theorem windowSumAt_succ_right (S : List Int) (i m : Nat) (h : i + m < S.length) :
    windowSumAt S i (m + 1) = windowSumAt S i m + S[i + m] := by
  unfold windowSumAt
  rw [List.take_succ, List.getElem?_drop, List.getElem?_eq_getElem h]
  simp

/-- The sliding identity: moving the window one step to the right removes the
leftmost element and adds the next one. -/
theorem windowSumAt_slide (S : List Int) (j k : Nat) (h : j + k < S.length) :
    windowSumAt S (j + 1) k = windowSumAt S j k - S[j] + S[j + k] := by
  have e1 := windowSumAt_succ_left S j k (by omega)
  have e2 := windowSumAt_succ_right S j k h
  omega

theorem windowSumAt_zero_left (S : List Int) (j : Nat) : windowSumAt S 0 j = (S.take j).sum := by
  simp [windowSumAt]

/-- The first loop on prefix sums that are safe integers: every addition is
exact, and the loop ends with the sum of the first `k` elements. -/
theorem maxSubArraySumLoop_spec (arr : List Int) (k : Nat) (hk : k ≤ arr.length)
    (hlen : arr.length ≤ twoPow53)
    (hsafe : ∀ j, j ≤ k → (windowSumAt arr 0 j).natAbs ≤ maxSafeInteger) (fuel : Nat) :
    ∀ i : Nat, i ≤ k → k - i ≤ fuel →
      maxSubArraySumLoop arr (k : Int) fuel (i : Int) (JsValue.number (windowSumAt arr 0 i))
        = some (JsValue.number (windowSumAt arr 0 k)) := by
  induction fuel with
  | zero =>
    intro i hik hfuel
    have : i = k := by omega
    unfold maxSubArraySumLoop
    simp [this]
  | succ fuel ih =>
    intro i hik hfuel
    unfold maxSubArraySumLoop
    by_cases h : i < k
    · have hc : (i : Int) < (k : Int) := by omega
      simp only [hc, if_true]
      rw [jsGet_of_lt arr i (by omega)]
      have hsum : windowSumAt arr 0 (i + 1) = windowSumAt arr 0 i + arr[i] := by
        have e := windowSumAt_succ_right arr 0 i (by omega)
        simp only [Nat.zero_add] at e
        exact e
      have hcount : round64 ((i : Int) + 1) = ((i + 1 : Nat) : Int) := by
        rw [round64_succ (i : Int) (by omega) (by omega)]
        push_cast
        rfl
      simp only [JsValue.add]
      rw [← hsum, JsValue.ofInt_of_safe _ (hsafe (i + 1) (by omega)), hcount]
      exact ih (i + 1) (by omega) (by omega)
    · have : i = k := by omega
      simp [this]

/-- The second loop on runs that are safe integers: every subtraction and
addition is exact, the window sum is maintained, and the loop ends with the
greatest window sum. -/
theorem maxSubArraySlideLoop_spec (arr : List Int) (k : Nat) (hk1 : 1 ≤ k)
    (hlen : arr.length ≤ twoPow53)
    (hsafe : ∀ i, i ≤ arr.length → ∀ m, m ≤ k →
      (windowSumAt arr i m).natAbs ≤ maxSafeInteger) (fuel : Nat) :
    ∀ (j : Nat) (m : Int), j + k ≤ arr.length → arr.length - (j + k) ≤ fuel →
      (∃ i, i ≤ j ∧ m = windowSumAt arr i k) → (∀ i, i ≤ j → windowSumAt arr i k ≤ m) →
      ∃ m1, maxSubArraySlideLoop arr (k : Int) fuel ((j + k : Nat) : Int)
            (JsValue.number (windowSumAt arr j k)) (JsValue.number m)
          = some (JsValue.number m1)
        ∧ (∃ i, i + k ≤ arr.length ∧ m1 = windowSumAt arr i k)
        ∧ (∀ i, i + k ≤ arr.length → windowSumAt arr i k ≤ m1) := by
  induction fuel with
  | zero =>
    intro j m hj hfuel hex hub
    have hjk : j + k = arr.length := by omega
    refine ⟨m, ?_, ?_, ?_⟩
    · unfold maxSubArraySlideLoop
      simp [hjk]
    · obtain ⟨i, hi, e⟩ := hex
      exact ⟨i, by omega, e⟩
    · intro i hi
      exact hub i (by omega)
  | succ fuel ih =>
    intro j m hj hfuel hex hub
    by_cases h : j + k < arr.length
    · unfold maxSubArraySlideLoop
      have hc : ((j + k : Nat) : Int) < (arr.length : Int) := by omega
      have hjj : round64 (((j + k : Nat) : Int) - (k : Int)) = (j : Int) := by
        have e : ((j + k : Nat) : Int) - (k : Int) = (j : Int) := by omega
        rw [e]
        exact round64_of_natAbs_le _ (by omega)
      have hnext : round64 (((j + k : Nat) : Int) + 1) = ((j + 1 + k : Nat) : Int) := by
        rw [round64_succ _ (by omega) (by omega)]
        omega
      obtain ⟨k1, rfl⟩ : ∃ k1, k = k1 + 1 := ⟨k - 1, by omega⟩
      have hleft : windowSumAt arr j (k1 + 1) - arr[j] = windowSumAt arr (j + 1) k1 := by
        have e := windowSumAt_succ_left arr j k1 (by omega)
        omega
      have hright : windowSumAt arr (j + 1) k1 + arr[j + (k1 + 1)]
          = windowSumAt arr (j + 1) (k1 + 1) := by
        have e := windowSumAt_succ_right arr (j + 1) k1 (by omega)
        have hidx : j + 1 + k1 = j + (k1 + 1) := by omega
        simp only [hidx] at e
        omega
      have hj1 : j + 1 ≤ arr.length := by omega
      have hw : ((JsValue.number (windowSumAt arr j (k1 + 1))).sub (jsGet arr (j : Int))).add
            (jsGet arr ((j + (k1 + 1) : Nat) : Int))
          = JsValue.number (windowSumAt arr (j + 1) (k1 + 1)) := by
        rw [jsGet_of_lt arr j (by omega), jsGet_of_lt arr (j + (k1 + 1)) h]
        show (JsValue.ofInt (windowSumAt arr j (k1 + 1) - arr[j])).add _ = _
        rw [hleft, JsValue.ofInt_of_safe _ (hsafe (j + 1) hj1 k1 (by omega))]
        show JsValue.ofInt (windowSumAt arr (j + 1) k1 + arr[j + (k1 + 1)]) = _
        rw [hright, JsValue.ofInt_of_safe _ (hsafe (j + 1) hj1 (k1 + 1) (le_refl _))]
      simp only [hc, if_true, hjj, hnext, hw, JsValue.gt]
      by_cases hgt : windowSumAt arr (j + 1) (k1 + 1) > m
      · simp only [hgt, decide_True, if_true]
        apply ih (j + 1) (windowSumAt arr (j + 1) (k1 + 1)) (by omega) (by omega)
        · exact ⟨j + 1, le_refl _, rfl⟩
        · intro i hi
          by_cases hij : i ≤ j
          · have := hub i hij
            omega
          · have : i = j + 1 := by omega
            rw [this]
      · simp only [hgt, decide_False, if_false, Bool.false_eq_true]
        apply ih (j + 1) m (by omega) (by omega)
        · obtain ⟨i, hi, e⟩ := hex
          exact ⟨i, by omega, e⟩
        · intro i hi
          by_cases hij : i ≤ j
          · exact hub i hij
          · have : i = j + 1 := by omega
            rw [this]; omega
    · have hjk : j + k = arr.length := by omega
      refine ⟨m, ?_, ?_, ?_⟩
      · unfold maxSubArraySlideLoop
        simp [hjk]
      · obtain ⟨i, hi, e⟩ := hex
        exact ⟨i, by omega, e⟩
      · intro i hi
        exact hub i (by omega)

/-! ## maxSubArray: window sizes outside `1 ≤ k ≤ arr.length` -/

theorem JsValue.add_undefined (a : JsValue) : a.add JsValue.undefined = JsValue.nan := by
  cases a <;> rfl

theorem JsValue.nan_add (a : JsValue) : JsValue.nan.add a = JsValue.nan := by
  cases a <;> rfl

theorem JsValue.nan_sub (a : JsValue) : JsValue.nan.sub a = JsValue.nan := by
  cases a <;> rfl

theorem JsValue.nan_gt (a : JsValue) : JsValue.nan.gt a = false := by
  cases a <;> rfl

/-- With a safe `k ≤ 0` the sliding loop never raises `maxSum` above `0`:
either the two reads hit the same position (`k = 0`) and cancel, or the read
at a negative index yields `undefined` and `windowSum` is `NaN` from then
on. -/
theorem maxSubArraySlideLoop_nonpos (arr : List Int) (k : Int) (hk : k ≤ 0)
    (hksafe : k.natAbs ≤ maxSafeInteger) (hlen : arr.length ≤ twoPow53)
    (helems : ∀ x ∈ arr, IsJsInteger x) (fuel : Nat) :
    ∀ (i : Int) (ws : JsValue), k ≤ i → (arr.length : Int) - i ≤ (fuel : Int) →
      (ws = JsValue.nan ∨ (ws = JsValue.number 0 ∧ (k = 0 ∨ i < 0))) →
      maxSubArraySlideLoop arr k fuel i ws (JsValue.number 0) = some (JsValue.number 0) := by
  have hms := maxSafeInteger_lt_twoPow53
  induction fuel with
  | zero =>
    intro i ws _ hfuel _
    unfold maxSubArraySlideLoop
    have : ¬ (i < (arr.length : Int)) := by omega
    simp [this]
  | succ fuel ih =>
    intro i ws hki hfuel hws
    unfold maxSubArraySlideLoop
    by_cases hc : i < (arr.length : Int)
    · have hnext : round64 (i + 1) = i + 1 := round64_succ i (by omega) (by omega)
      have key : (ws.sub (jsGet arr (round64 (i - k)))).add (jsGet arr i) = JsValue.nan
          ∨ ((ws.sub (jsGet arr (round64 (i - k)))).add (jsGet arr i) = JsValue.number 0
              ∧ k = 0) := by
        rcases hws with hws | ⟨hws, hk0 | hneg⟩
        · left; rw [hws, JsValue.nan_sub, JsValue.nan_add]
        · right
          have hi0 : 0 ≤ i := by omega
          obtain ⟨n, hn⟩ := Int.eq_ofNat_of_zero_le hi0
          have hlt : n < arr.length := by omega
          subst hk0
          have hidx : round64 (i - 0) = (n : Int) := by
            rw [Int.sub_zero, hn]
            exact round64_of_natAbs_le _ (by omega)
          rw [hws, hidx, hn, jsGet_of_lt arr n hlt]
          have ha : IsJsInteger arr[n] := helems _ (List.getElem_mem _)
          refine ⟨?_, rfl⟩
          show (JsValue.ofInt (0 - arr[n])).add (JsValue.number arr[n]) = JsValue.number 0
          rw [JsValue.ofInt_neg_of_isJsInteger _ ha]
          show JsValue.ofInt (-arr[n] + arr[n]) = JsValue.number 0
          rw [Int.add_left_neg]
          exact JsValue.ofInt_of_natAbs_le 0 (by simp)
        · left; rw [jsGet_of_neg arr i hneg, JsValue.add_undefined]
      simp only [hc, if_true, hnext]
      rcases key with e | ⟨e, hk0⟩
      · rw [e]
        simp only [JsValue.nan_gt, Bool.false_eq_true, if_false]
        exact ih (i + 1) JsValue.nan (by omega) (by omega) (Or.inl rfl)
      · rw [e]
        simp only [JsValue.gt, gt_iff_lt, lt_self_iff_false, decide_False, Bool.false_eq_true,
          if_false]
        exact ih (i + 1) (JsValue.number 0) (by omega) (by omega) (Or.inr ⟨rfl, Or.inl hk0⟩)
    · simp [hc]

/-- With a safe `k > arr.length` the first loop reads position `arr.length`,
which is `undefined`, and the sum is `NaN` from then on. -/
theorem maxSubArraySumLoop_too_long (arr : List Int) (k : Nat) (hk : arr.length < k)
    (hksafe : k ≤ maxSafeInteger) (fuel : Nat) :
    ∀ (i : Nat) (v : JsValue), i ≤ k → k - i ≤ fuel → (arr.length < i → v = JsValue.nan) →
      maxSubArraySumLoop arr (k : Int) fuel (i : Int) v = some JsValue.nan := by
  have hms := maxSafeInteger_lt_twoPow53
  induction fuel with
  | zero =>
    intro i v hi hfuel hv
    have hik : i = k := by omega
    unfold maxSubArraySumLoop
    have hc : ¬ ((i : Int) < (k : Int)) := by omega
    simp [hc, hv (by omega)]
  | succ fuel ih =>
    intro i v hi hfuel hv
    unfold maxSubArraySumLoop
    by_cases hc : (i : Int) < (k : Int)
    · have hnext : round64 ((i : Int) + 1) = ((i + 1 : Nat) : Int) := by
        rw [round64_succ (i : Int) (by omega) (by omega)]
        push_cast
        rfl
      simp only [hc, if_true, hnext]
      apply ih (i + 1) _ (by omega) (by omega)
      intro hlt
      by_cases hil : i = arr.length
      · rw [jsGet_of_ge arr i (by omega), JsValue.add_undefined]
      · rw [hv (by omega), JsValue.nan_add]
    · have hik : i = k := by omega
      simp [hc, hv (by omega)]

theorem maxSubArray_of_nonpos (S : List Int) (k : Int) (hk : k ≤ 0)
    (hksafe : k.natAbs ≤ maxSafeInteger) (hlen : S.length ≤ twoPow53)
    (helems : ∀ x ∈ S, IsJsInteger x) :
    maxSubArray S k = some (Outcome.returned (JsValue.number 0)) := by
  have h1 : maxSubArraySumLoop S k k.toNat 0 (JsValue.number 0) = some (JsValue.number 0) := by
    unfold maxSubArraySumLoop
    have : ¬ ((0 : Int) < k) := by omega
    simp [this]
  have h2 := maxSubArraySlideLoop_nonpos S k hk hksafe hlen helems
    ((S.length : Int) - k).toNat k (JsValue.number 0) (le_refl _) (by omega)
    (Or.inr ⟨rfl, by omega⟩)
  unfold maxSubArray
  rw [h1]
  simp only [h2]

theorem maxSubArray_of_too_long (S : List Int) (k : Int) (hk : (S.length : Int) < k)
    (hksafe : k.natAbs ≤ maxSafeInteger) :
    maxSubArray S k = some (Outcome.returned JsValue.nan) := by
  obtain ⟨kn, rfl⟩ := Int.eq_ofNat_of_zero_le (show 0 ≤ k by omega)
  have h1 := maxSubArraySumLoop_too_long S kn (by omega) (by omega) kn 0 (JsValue.number 0)
    (Nat.zero_le _) (by omega) (by intro h; omega)
  have h2 : maxSubArraySlideLoop S (kn : Int) ((S.length : Int) - (kn : Int)).toNat (kn : Int)
      JsValue.nan JsValue.nan = some JsValue.nan := by
    unfold maxSubArraySlideLoop
    have : ¬ ((kn : Int) < (S.length : Int)) := by omega
    simp [this]
  unfold maxSubArray
  simp only [Nat.cast_zero] at h1
  have hf : (kn : Int).toNat = kn := by omega
  rw [hf, h1]
  simp only [h2]

/-- The call with a window size `1 ≤ k ≤ length` on an array whose runs of at
most `k` elements all have safe sums. -/
theorem maxSubArray_of_valid (S : List Int) (k : Nat) (hk1 : 1 ≤ k) (hk : k ≤ S.length)
    (hlen : S.length ≤ twoPow53)
    (hsafe : ∀ i, i ≤ S.length → ∀ m, m ≤ k → (windowSumAt S i m).natAbs ≤ maxSafeInteger) :
    ∃ m, maxSubArray S (k : Int) = some (Outcome.returned (JsValue.number m))
      ∧ (∃ i, i + k ≤ S.length ∧ m = windowSumAt S i k)
      ∧ (∀ i, i + k ≤ S.length → windowSumAt S i k ≤ m) := by
  have h1 := maxSubArraySumLoop_spec S k hk hlen (fun j hj => hsafe 0 (Nat.zero_le _) j hj)
    k 0 (Nat.zero_le _) (by omega)
  simp only [Nat.cast_zero, windowSumAt_zero] at h1
  obtain ⟨m, h2, hex, hub⟩ := maxSubArraySlideLoop_spec S k hk1 hlen hsafe (S.length - k) 0
    (windowSumAt S 0 k) (by omega) (by omega) ⟨0, le_refl _, rfl⟩
    (by intro i hi; have : i = 0 := by omega
        rw [this])
  simp only [zero_add] at h2
  refine ⟨m, ?_, hex, hub⟩
  unfold maxSubArray
  have hf1 : (k : Int).toNat = k := by omega
  have hf2 : ((S.length : Int) - (k : Int)).toNat = S.length - k := by omega
  rw [hf1, hf2, h1]
  simp only [h2]

/-- The call with `k = length` on an array whose prefix sums are safe. -/
theorem maxSubArray_of_full (S : List Int) (hlen : S.length ≤ twoPow53)
    (hsafe : ∀ j, j ≤ S.length → ((S.take j).sum).natAbs ≤ maxSafeInteger) :
    maxSubArray S (S.length : Int) = some (Outcome.returned (JsValue.number S.sum)) := by
  have h1 := maxSubArraySumLoop_spec S S.length (le_refl _) hlen
    (fun j hj => by rw [windowSumAt_zero_left]; exact hsafe j hj)
    S.length 0 (Nat.zero_le _) (by omega)
  simp only [Nat.cast_zero, windowSumAt_zero, windowSumAt_zero_left, List.take_length] at h1
  have h2 : maxSubArraySlideLoop S (S.length : Int)
      ((S.length : Int) - (S.length : Int)).toNat (S.length : Int)
      (JsValue.number S.sum) (JsValue.number S.sum) = some (JsValue.number S.sum) := by
    unfold maxSubArraySlideLoop
    simp
  unfold maxSubArray
  have hf1 : (S.length : Int).toNat = S.length := by omega
  rw [hf1, h1]
  simp only [h2]

/-! ## isPalindrom: the two-cursor scan -/

theorem jsAt_natCast {α : Type} (str : List α) (i : Nat) : jsAt str (i : Int) = str[i]? := by
  unfold jsAt
  simp

/-- Loop invariant of the scan, in closed form: started with the cursors at
mirrored positions `l` and `str.length - 1 - l`, the loop returns `true`
exactly when every position from `l` up to the middle agrees with its mirror
image. -/
theorem isPalindromLoop_spec {α : Type} [DecidableEq α] (str : List α) (fuel : Nat) :
    ∀ l : Nat, str.length ≤ fuel + l →
      ∃ b, isPalindromLoop str fuel (l : Int) ((str.length : Int) - 1 - (l : Int)) = some b
        ∧ (b = true ↔
            ∀ i, l ≤ i → 2 * i + 1 < str.length → str[i]? = str[str.length - 1 - i]?) := by
  induction fuel with
  | zero =>
    intro l hfuel
    refine ⟨true, ?_, ?_⟩
    · unfold isPalindromLoop
      have : ¬ ((l : Int) < (str.length : Int) - 1 - (l : Int)) := by omega
      simp [this]
    · simp only [true_iff]
      intro i hi h
      omega
  | succ fuel ih =>
    intro l hfuel
    unfold isPalindromLoop
    by_cases hc : (l : Int) < (str.length : Int) - 1 - (l : Int)
    · simp only [hc, if_true]
      have hr : (str.length : Int) - 1 - (l : Int) = ((str.length - 1 - l : Nat) : Int) := by
        omega
      rw [hr, jsAt_natCast, jsAt_natCast]
      by_cases heq : str[l]? = str[str.length - 1 - l]?
      · simp only [heq, ne_eq, not_true_eq_false, if_false]
        obtain ⟨b, e, hb⟩ := ih (l + 1) (by omega)
        have hr2 : ((str.length - 1 - l : Nat) : Int) - 1
            = (str.length : Int) - 1 - ((l + 1 : Nat) : Int) := by omega
        have hl2 : (l : Int) + 1 = ((l + 1 : Nat) : Int) := by omega
        rw [hr2, hl2]
        refine ⟨b, e, ?_⟩
        rw [hb]
        constructor
        · intro h i hi h2
          by_cases hil : i = l
          · rw [hil]; exact heq
          · exact h i (by omega) h2
        · intro h i hi h2
          exact h i (by omega) h2
      · simp only [ne_eq, heq, not_false_eq_true, if_true]
        refine ⟨false, rfl, ?_⟩
        simp only [Bool.false_eq_true, false_iff, not_forall]
        exact ⟨l, le_refl _, by omega, heq⟩
    · simp only [hc, if_false]
      refine ⟨true, rfl, ?_⟩
      simp only [true_iff]
      intro i hi h
      omega

/-- A list equals its reversal as soon as its first half mirrors its second
half. -/
theorem reverse_eq_iff_half_mirror {α : Type} (S : List α) :
    S.reverse = S ↔ ∀ i, 2 * i + 1 < S.length → S[i]? = S[S.length - 1 - i]? := by
  constructor
  · intro h i hi
    have hlt : i < S.length := by omega
    have e := List.getElem?_reverse hlt
    rw [h] at e
    exact e
  · intro h
    apply List.ext_getElem?
    intro i
    by_cases hlt : i < S.length
    · rw [List.getElem?_reverse hlt]
      by_cases h1 : 2 * i + 1 < S.length
      · exact (h i h1).symm
      · by_cases h2 : 2 * i + 1 = S.length
        · have : S.length - 1 - i = i := by omega
          rw [this]
        · have e := h (S.length - 1 - i) (by omega)
          have : S.length - 1 - (S.length - 1 - i) = i := by omega
          rw [this] at e
          exact e
    · have hge : S.length ≤ i := by omega
      rw [List.getElem?_eq_none hge, List.getElem?_eq_none (by simpa using hge)]

theorem reverse_eq_iff_mirror {α : Type} (S : List α) :
    S.reverse = S ↔ ∀ i, i < S.length → S[i]? = S[S.length - 1 - i]? := by
  constructor
  · intro h i hlt
    have e := List.getElem?_reverse hlt
    rw [h] at e
    exact e
  · intro h
    exact (reverse_eq_iff_half_mirror S).mpr (fun i hi => h i (by omega))

/-- Closed form of `isPalindrom`: the call returns, and returns whether the
sequence equals its reversal. -/
theorem isPalindrom_eq_decide {α : Type} [DecidableEq α] (S : List α) :
    isPalindrom S = some (decide (S.reverse = S)) := by
  obtain ⟨b, e, hb⟩ := isPalindromLoop_spec S S.length 0 (by omega)
  simp only [Nat.cast_zero, sub_zero, Nat.zero_le, true_implies] at e hb
  unfold isPalindrom
  rw [e]
  congr 1
  rw [← reverse_eq_iff_half_mirror S] at hb
  by_cases h : S.reverse = S
  · simp only [h, decide_True]; exact hb.mpr h
  · simp only [h, decide_False]
    cases b with
    | true => exact absurd (hb.mp rfl) h
    | false => rfl

/-! ## Claims about removeDuplicates -/

/-- C1: for every non-empty sequence `S` of integers sorted in non-descending
order, `removeDuplicates(S)` returns a length equal to the number of distinct
values occurring in `S`. -/
theorem removeDuplicates_returns_distinctCount (S : List Int) (hne : S ≠ [])
    (hs : S.Sorted (· ≤ ·)) :
    ∃ out, removeDuplicates S = some (out, JsValue.number ((distinctCount S : Nat) : Int)) := by
  cases S with
  | nil => exact absurd rfl hne
  | cons x xs =>
    refine ⟨x :: keepChanges x xs, ?_⟩
    rw [removeDuplicates_cons, distinctCount_cons_sorted x xs hs]

theorem removeDuplicates_returns_distinctCount_witness :
    ([1, 1, 2, 2, 3, 4, 4, 5] : List Int) ≠ [] ∧
    ([1, 1, 2, 2, 3, 4, 4, 5] : List Int).Sorted (· ≤ ·) ∧
    ∃ out, removeDuplicates [1, 1, 2, 2, 3, 4, 4, 5]
      = some (out, JsValue.number ((distinctCount [1, 1, 2, 2, 3, 4, 4, 5] : Nat) : Int)) :=
  ⟨by decide, by decide,
    removeDuplicates_returns_distinctCount [1, 1, 2, 2, 3, 4, 4, 5] (by decide) (by decide)⟩

/-- C2: for every non-empty sequence `S` sorted in non-descending order, the
call leaves an array of exactly `L` elements, `L` being the returned length,
and these elements are the distinct values of `S`, each once, in the order of
their first occurrence in `S`; they are strictly increasing. -/
theorem removeDuplicates_leaves_firstOccurrences (S : List Int) (hne : S ≠ [])
    (hs : S.Sorted (· ≤ ·)) :
    ∃ (out : List Int) (L : Nat),
      removeDuplicates S = some (out, JsValue.number (L : Int))
      ∧ out.length = L
      ∧ out = firstOccurrences S
      ∧ out.Nodup
      ∧ (∀ v, v ∈ out ↔ v ∈ S)
      ∧ out.Sorted (· < ·) := by
  cases S with
  | nil => exact absurd rfl hne
  | cons x xs =>
    have hlt : (x :: keepChanges x xs).Sorted (· < ·) := sorted_lt_keepChanges xs x hs
    have hx : ∀ b ∈ keepChanges x xs, x < b := (List.sorted_cons.mp hlt).1
    refine ⟨x :: keepChanges x xs, (keepChanges x xs).length + 1,
      removeDuplicates_cons x xs, by simp, ?_, hlt.nodup, ?_, hlt⟩
    · unfold firstOccurrences
      rw [keepChanges_eq_firstOccurrences xs x hs]
    · intro v
      simp only [List.mem_cons]
      constructor
      · rintro (h | h)
        · left; exact h
        · right; exact mem_of_mem_keepChanges xs x v h
      · rintro (h | h)
        · left; exact h
        · exact mem_keepChanges_of_mem xs x v h

theorem removeDuplicates_leaves_firstOccurrences_witness :
    ([1, 1, 2, 2, 3, 4, 4, 5] : List Int) ≠ [] ∧
    ([1, 1, 2, 2, 3, 4, 4, 5] : List Int).Sorted (· ≤ ·) ∧
    ∃ (out : List Int) (L : Nat),
      removeDuplicates [1, 1, 2, 2, 3, 4, 4, 5] = some (out, JsValue.number (L : Int))
      ∧ out.length = L
      ∧ out = firstOccurrences [1, 1, 2, 2, 3, 4, 4, 5]
      ∧ out.Nodup
      ∧ (∀ v, v ∈ out ↔ v ∈ ([1, 1, 2, 2, 3, 4, 4, 5] : List Int))
      ∧ out.Sorted (· < ·) :=
  ⟨by decide, by decide,
    removeDuplicates_leaves_firstOccurrences [1, 1, 2, 2, 3, 4, 4, 5] (by decide) (by decide)⟩

/-- C3, as the claim states it, fails: on the empty sequence the call does not
return the length `0`, whatever array it leaves. -/
theorem removeDuplicates_nil_not_zero :
    ¬ ∃ out, removeDuplicates [] = some (out, JsValue.number 0) := by
  rintro ⟨out, h⟩
  simp [removeDuplicates] at h

/-- C3, amended: for the empty sequence, `removeDuplicates` returns no value
(`undefined`) and leaves the sequence empty. -/
theorem removeDuplicates_nil_undefined :
    removeDuplicates [] = some ([], JsValue.undefined) := by
  decide

/-- C4: `removeDuplicates` is idempotent.  For every sequence `S` sorted in
non-descending order, a second application to the sequence left by the first
one leaves that sequence unchanged and returns the same value.  (The proof
does not use the sortedness.) -/
theorem removeDuplicates_idempotent (S : List Int) (_hs : S.Sorted (· ≤ ·)) :
    ∃ (out : List Int) (v : JsValue),
      removeDuplicates S = some (out, v) ∧ removeDuplicates out = some (out, v) := by
  cases S with
  | nil => exact ⟨[], JsValue.undefined, by decide, by decide⟩
  | cons x xs =>
    refine ⟨x :: keepChanges x xs, JsValue.number ((keepChanges x xs).length + 1 : Nat),
      removeDuplicates_cons x xs, ?_⟩
    rw [removeDuplicates_cons, keepChanges_idem]

theorem removeDuplicates_idempotent_witness :
    ([1, 1, 2, 2, 3, 4, 4, 5] : List Int).Sorted (· ≤ ·) ∧
    ∃ (out : List Int) (v : JsValue),
      removeDuplicates [1, 1, 2, 2, 3, 4, 4, 5] = some (out, v)
      ∧ removeDuplicates out = some (out, v) :=
  ⟨by decide, removeDuplicates_idempotent [1, 1, 2, 2, 3, 4, 4, 5] (by decide)⟩

/-! ## Claims about maxSubArray -/

/-- C5, as the claim states it, fails: on `[2 ^ 53, 1, 1]` with `k = 2` the
first window sum `2 ^ 53 + 1` is rounded to `2 ^ 53`, which is returned; it is
the sum of no window and is smaller than the sum of the first window. -/
theorem maxSubArray_window_sum_rounded :
    (∀ x ∈ ([9007199254740992, 1, 1] : List Int), IsJsInteger x)
    ∧ maxSubArray [9007199254740992, 1, 1] 2
        = some (Outcome.returned (JsValue.number 9007199254740992))
    ∧ windowSumAt [9007199254740992, 1, 1] 0 2 = 9007199254740993
    ∧ windowSumAt [9007199254740992, 1, 1] 1 2 = 2
    ∧ ¬ ∃ m, maxSubArray [9007199254740992, 1, 1] 2 = some (Outcome.returned (JsValue.number m))
        ∧ (∃ i, i + 2 ≤ ([9007199254740992, 1, 1] : List Int).length
            ∧ m = windowSumAt [9007199254740992, 1, 1] i 2)
        ∧ (∀ i, i + 2 ≤ ([9007199254740992, 1, 1] : List Int).length →
            windowSumAt [9007199254740992, 1, 1] i 2 ≤ m) := by
  refine ⟨by decide, by decide, by decide, by decide, ?_⟩
  rintro ⟨m, h1, _, h3⟩
  have hv : maxSubArray [9007199254740992, 1, 1] 2
      = some (Outcome.returned (JsValue.number 9007199254740992)) := by decide
  rw [hv] at h1
  simp only [Option.some.injEq, Outcome.returned.injEq, JsValue.number.injEq] at h1
  have h0 := h3 0 (by decide)
  have hw : windowSumAt [9007199254740992, 1, 1] 0 2 = 9007199254740993 := by decide
  rw [hw, ← h1] at h0
  omega

/-- C5, amended: for every sequence `S` of integers with fewer than `2 ^ 32`
elements and every `k` with `1 ≤ k ≤ length(S)` such that every run of at most
`k` consecutive elements of `S` has a sum that is a safe integer (of absolute
value at most `2 ^ 53 - 1`), `maxSubArray(S, k)` returns the maximum of the
sums of the windows `S[i..i+k)`, `0 ≤ i ≤ length(S) - k`: the returned number
is the sum of some window of size `k` and is at least the sum of every window
of size `k`. -/
theorem maxSubArray_eq_max_windowSum (S : List Int) (k : Nat) (hlen : S.length < 2 ^ 32)
    (hk1 : 1 ≤ k) (hk2 : k ≤ S.length)
    (hsafe : ∀ i, i ≤ S.length → ∀ m, m ≤ k → (windowSumAt S i m).natAbs ≤ maxSafeInteger) :
    ∃ m, maxSubArray S (k : Int) = some (Outcome.returned (JsValue.number m))
      ∧ (∃ i, i + k ≤ S.length ∧ m = windowSumAt S i k)
      ∧ (∀ i, i + k ≤ S.length → windowSumAt S i k ≤ m) :=
  maxSubArray_of_valid S k hk1 hk2 (length_le_twoPow53 S hlen) hsafe

theorem maxSubArray_eq_max_windowSum_witness :
    ([1, 2, 3, 4, 5, 1, 2, 3] : List Int).length < 2 ^ 32
    ∧ 1 ≤ 3 ∧ 3 ≤ ([1, 2, 3, 4, 5, 1, 2, 3] : List Int).length
    ∧ (∀ i, i ≤ ([1, 2, 3, 4, 5, 1, 2, 3] : List Int).length → ∀ m, m ≤ 3 →
        (windowSumAt [1, 2, 3, 4, 5, 1, 2, 3] i m).natAbs ≤ maxSafeInteger)
    ∧ ∃ m, maxSubArray [1, 2, 3, 4, 5, 1, 2, 3] ((3 : Nat) : Int)
        = some (Outcome.returned (JsValue.number m))
      ∧ (∃ i, i + 3 ≤ ([1, 2, 3, 4, 5, 1, 2, 3] : List Int).length
          ∧ m = windowSumAt [1, 2, 3, 4, 5, 1, 2, 3] i 3)
      ∧ (∀ i, i + 3 ≤ ([1, 2, 3, 4, 5, 1, 2, 3] : List Int).length →
          windowSumAt [1, 2, 3, 4, 5, 1, 2, 3] i 3 ≤ m) :=
  ⟨by decide, by decide, by decide, by decide,
    maxSubArray_eq_max_windowSum [1, 2, 3, 4, 5, 1, 2, 3] 3 (by decide) (by decide) (by decide)
      (by decide)⟩

/-- C6, as the claim states it, fails: with `k = 0` (and with
`k = 5 > length`) the call on `[1, 2, 3]` returns a value and does not fail
with `InvalidArgument`. -/
theorem maxSubArray_invalid_k_no_error :
    maxSubArray [1, 2, 3] 0 = some (Outcome.returned (JsValue.number 0))
    ∧ maxSubArray [1, 2, 3] 0 ≠ some (Outcome.failed ErrorKind.InvalidArgument)
    ∧ maxSubArray [1, 2, 3] 5 = some (Outcome.returned JsValue.nan)
    ∧ maxSubArray [1, 2, 3] 5 ≠ some (Outcome.failed ErrorKind.InvalidArgument) := by
  decide

/-- C6, amended: for every sequence `S` of integers (fewer than `2 ^ 32`
elements, each a JavaScript number) and every safe integer `k` (of absolute
value at most `2 ^ 53 - 1`), `maxSubArray` called with `k ≤ 0` or
`k > length(S)` does not fail: it returns `0` when `k ≤ 0` and `NaN` when
`k > length(S)`. -/
theorem maxSubArray_invalid_k_returns (S : List Int) (k : Int) (hlen : S.length < 2 ^ 32)
    (helems : ∀ x ∈ S, IsJsInteger x) (hksafe : k.natAbs ≤ maxSafeInteger)
    (h : k ≤ 0 ∨ (S.length : Int) < k) :
    maxSubArray S k
      = some (Outcome.returned (if k ≤ 0 then JsValue.number 0 else JsValue.nan)) := by
  by_cases hk : k ≤ 0
  · rw [if_pos hk]
    exact maxSubArray_of_nonpos S k hk hksafe (length_le_twoPow53 S hlen) helems
  · rw [if_neg hk]
    rcases h with h | h
    · exact absurd h hk
    · exact maxSubArray_of_too_long S k h hksafe

theorem maxSubArray_invalid_k_returns_witness :
    ([1, 2, 3] : List Int).length < 2 ^ 32
    ∧ (∀ x ∈ ([1, 2, 3] : List Int), IsJsInteger x)
    ∧ (-2 : Int).natAbs ≤ maxSafeInteger
    ∧ ((-2 : Int) ≤ 0 ∨ ((([1, 2, 3] : List Int).length : Nat) : Int) < -2)
    ∧ maxSubArray [1, 2, 3] (-2)
      = some (Outcome.returned (if (-2 : Int) ≤ 0 then JsValue.number 0 else JsValue.nan)) :=
  ⟨by decide, by decide, by decide, by decide,
    maxSubArray_invalid_k_returns [1, 2, 3] (-2) (by decide) (by decide) (by decide)
      (by decide)⟩

/-- C7, as the claim states it, fails: on `[2 ^ 53 - 1, 2, -(2 ^ 53 - 1)]`,
three safe integers with the sum `2`, the call with `k = 3` returns `1`,
because the partial sum `2 ^ 53 + 1` is rounded to `2 ^ 53`. -/
theorem maxSubArray_full_length_rounded :
    ([9007199254740991, 2, -9007199254740991] : List Int) ≠ []
    ∧ (∀ x ∈ ([9007199254740991, 2, -9007199254740991] : List Int),
        x.natAbs ≤ maxSafeInteger ∧ IsJsInteger x)
    ∧ maxSubArray [9007199254740991, 2, -9007199254740991]
        ((([9007199254740991, 2, -9007199254740991] : List Int).length : Nat) : Int)
        = some (Outcome.returned (JsValue.number 1))
    ∧ ([9007199254740991, 2, -9007199254740991] : List Int).sum = 2 := by
  decide

/-- C7, amended: for every non-empty sequence `S` of integers with fewer than
`2 ^ 32` elements whose partial sums `S[0] + ... + S[j - 1]`, `j ≤ length(S)`,
are all safe integers (of absolute value at most `2 ^ 53 - 1`),
`maxSubArray(S, length(S))` returns the sum of all elements of `S`. -/
theorem maxSubArray_full_length (S : List Int) (_hne : S ≠ []) (hlen : S.length < 2 ^ 32)
    (hsafe : ∀ j, j ≤ S.length → ((S.take j).sum).natAbs ≤ maxSafeInteger) :
    maxSubArray S (S.length : Int) = some (Outcome.returned (JsValue.number S.sum)) :=
  maxSubArray_of_full S (length_le_twoPow53 S hlen) hsafe

theorem maxSubArray_full_length_witness :
    ([4, -1, 7] : List Int) ≠ []
    ∧ ([4, -1, 7] : List Int).length < 2 ^ 32
    ∧ (∀ j, j ≤ ([4, -1, 7] : List Int).length →
        ((([4, -1, 7] : List Int).take j).sum).natAbs ≤ maxSafeInteger)
    ∧ maxSubArray [4, -1, 7] ((([4, -1, 7] : List Int).length : Nat) : Int)
      = some (Outcome.returned (JsValue.number ([4, -1, 7] : List Int).sum)) :=
  ⟨by decide, by decide, by decide,
    maxSubArray_full_length [4, -1, 7] (by decide) (by decide) (by decide)⟩

/-! ## Claims about isPalindrom -/

/-- C8: for every sequence `S`, `isPalindrom(S)` returns `true` if and only if
`S` equals its own reversal, that is, `S[i] = S[length(S) - 1 - i]` for every
index `i`. -/
theorem isPalindrom_iff_reverse {α : Type} [DecidableEq α] (S : List α) :
    ∃ b, isPalindrom S = some b
      ∧ (b = true ↔ S = S.reverse)
      ∧ (b = true ↔ ∀ i, i < S.length → S[i]? = S[S.length - 1 - i]?) := by
  refine ⟨decide (S.reverse = S), isPalindrom_eq_decide S, ?_, ?_⟩
  · simp only [decide_eq_true_eq]
    exact eq_comm
  · simp only [decide_eq_true_eq]
    exact reverse_eq_iff_mirror S

/-- C9: for every sequence `S`, `isPalindrom(S)` returns the same boolean as
`isPalindrom(reverse(S))`. -/
theorem isPalindrom_reverse {α : Type} [DecidableEq α] (S : List α) :
    ∃ b, isPalindrom S = some b ∧ isPalindrom S.reverse = some b := by
  refine ⟨decide (S.reverse = S), isPalindrom_eq_decide S, ?_⟩
  rw [isPalindrom_eq_decide, List.reverse_reverse]
  congr 1
  by_cases h : S.reverse = S
  · simp [h]
  · have h2 : ¬ (S = S.reverse) := fun e => h e.symm
    simp [h, h2]

/-- C10: for every sequence `S` of length 0 or 1, `isPalindrom(S)` returns
`true`, and the scan loop is never entered: the loop completes from the
initial cursors with a budget of zero iterations. -/
theorem isPalindrom_short {α : Type} [DecidableEq α] (S : List α) (h : S.length ≤ 1) :
    isPalindrom S = some true
      ∧ isPalindromLoop S 0 0 ((S.length : Int) - 1) = some true := by
  have hc : ¬ ((0 : Int) < (S.length : Int) - 1) := by omega
  constructor
  · unfold isPalindrom isPalindromLoop
    simp [hc]
  · unfold isPalindromLoop
    simp [hc]

theorem isPalindrom_short_witness :
    ("a".toList).length ≤ 1 ∧
    (isPalindrom "a".toList = some true
      ∧ isPalindromLoop "a".toList 0 0 ((("a".toList).length : Int) - 1) = some true) :=
  ⟨by decide, isPalindrom_short "a".toList (by decide)⟩

/-! ## zerosToEnd: the two loops -/

/-- Loop invariant of the compaction, in closed form.  From a state with
`writeIndex ≤ readIndex` the loop ends with `writeIndex` advanced by the number
of non-zero elements from the read cursor on, the first `writeIndex` positions
hold the old first `writeIndex` positions followed by these elements, and the
length of the array is unchanged. -/
theorem zerosToEndCompactLoop_spec (fuel : Nat) :
    ∀ (arr : List Int) (w r : Nat),
      w ≤ r → r ≤ arr.length → arr.length - r ≤ fuel →
      ∃ arr1, zerosToEndCompactLoop fuel arr w r
          = some (arr1, w + ((arr.drop r).filter (fun x => decide (x ≠ 0))).length)
        ∧ arr1.take (w + ((arr.drop r).filter (fun x => decide (x ≠ 0))).length)
          = arr.take w ++ (arr.drop r).filter (fun x => decide (x ≠ 0))
        ∧ arr1.length = arr.length := by
  induction fuel with
  | zero =>
    intro arr w r _ hr hfuel
    have hrl : r = arr.length := by omega
    refine ⟨arr, ?_, ?_, rfl⟩
    · unfold zerosToEndCompactLoop
      simp [hrl]
    · simp [hrl]
  | succ fuel ih =>
    intro arr w r hwr hr hfuel
    unfold zerosToEndCompactLoop
    by_cases h : r < arr.length
    · have hdrop : arr.drop r = arr[r] :: arr.drop (r + 1) := List.drop_eq_getElem_cons h
      simp only [h, dite_true]
      by_cases hx : arr[r] = 0
      · simp only [hx, ne_eq, not_true_eq_false, if_false]
        obtain ⟨arr1, e1, e2, e3⟩ := ih arr w (r + 1) (by omega) (by omega) (by omega)
        have hk : (arr.drop r).filter (fun x => decide (x ≠ 0))
            = (arr.drop (r + 1)).filter (fun x => decide (x ≠ 0)) := by
          rw [hdrop, List.filter_cons]; simp [hx]
        rw [hk]
        exact ⟨arr1, e1, e2, e3⟩
      · simp only [ne_eq, hx, not_false_eq_true, if_true]
        have hw : w < arr.length := by omega
        obtain ⟨arr1, e1, e2, e3⟩ := ih (arr.set w arr[r]) (w + 1) (r + 1) (by omega)
          (by simp; omega) (by simp; omega)
        have hd : (arr.set w arr[r]).drop (r + 1) = arr.drop (r + 1) :=
          List.drop_set_of_lt _ _ (by omega)
        rw [hd] at e1 e2
        rw [take_succ_set arr w _ hw] at e2
        have hk : (arr.drop r).filter (fun x => decide (x ≠ 0))
            = arr[r] :: (arr.drop (r + 1)).filter (fun x => decide (x ≠ 0)) := by
          rw [hdrop, List.filter_cons]; simp [hx]
        rw [hk]
        have hlen : w + (arr[r] :: (arr.drop (r + 1)).filter
              (fun x => decide (x ≠ 0))).length
            = w + 1 + ((arr.drop (r + 1)).filter (fun x => decide (x ≠ 0))).length := by
          simp only [List.length_cons]; omega
        rw [hlen]
        refine ⟨arr1, e1, ?_, ?_⟩
        · rw [e2]; simp
        · rw [e3]; simp
    · have hrl : r = arr.length := by omega
      refine ⟨arr, ?_, ?_, rfl⟩
      · simp [hrl]
      · simp [hrl]

/-- The fill loop overwrites every position from `writeIndex` on with `0`. -/
theorem zerosToEndFillLoop_spec (fuel : Nat) :
    ∀ (arr : List Int) (w : Nat), w ≤ arr.length → arr.length - w ≤ fuel →
      zerosToEndFillLoop fuel arr w
        = some (arr.take w ++ List.replicate (arr.length - w) 0) := by
  induction fuel with
  | zero =>
    intro arr w hw hfuel
    have hwl : w = arr.length := by omega
    unfold zerosToEndFillLoop
    simp [hwl]
  | succ fuel ih =>
    intro arr w hw hfuel
    unfold zerosToEndFillLoop
    by_cases h : w < arr.length
    · simp only [h, if_true]
      rw [ih (arr.set w 0) (w + 1) (by simp; omega) (by simp; omega)]
      rw [take_succ_set arr w 0 h, List.length_set]
      have hrep : arr.length - w = (arr.length - (w + 1)) + 1 := by omega
      rw [hrep, List.replicate_succ]
      simp
    · have hwl : w = arr.length := by omega
      simp [hwl]

/-- Closed form of `zerosToEnd`: the non-zero elements in their order, then
as many zeros as are needed to keep the length. -/
theorem zerosToEnd_eq (S : List Int) :
    zerosToEnd S = some (S.filter (fun x => decide (x ≠ 0))
      ++ List.replicate (S.length - (S.filter (fun x => decide (x ≠ 0))).length) 0) := by
  obtain ⟨arr1, e1, e2, e3⟩ := zerosToEndCompactLoop_spec S.length S 0 0 (le_refl _)
    (Nat.zero_le _) (by omega)
  simp only [List.drop_zero, Nat.zero_add, List.take_zero, List.nil_append] at e1 e2
  have hle : (S.filter (fun x => decide (x ≠ 0))).length ≤ S.length := List.length_filter_le _ _
  unfold zerosToEnd
  rw [e1]
  simp only
  rw [zerosToEndFillLoop_spec arr1.length arr1 _ (by omega) (by omega), e2, e3]

theorem length_sub_length_filter_ne_zero (S : List Int) :
    S.length - (S.filter (fun x => decide (x ≠ 0))).length = S.count 0 := by
  induction S with
  | nil => simp
  | cons x xs ih =>
    have hle : (xs.filter (fun x => decide (x ≠ 0))).length ≤ xs.length :=
      List.length_filter_le _ _
    by_cases hx : x = 0
    · have e : (x :: xs).filter (fun x => decide (x ≠ 0))
          = xs.filter (fun x => decide (x ≠ 0)) := by
        rw [List.filter_cons]; simp [hx]
      have c : (x :: xs).count 0 = xs.count 0 + 1 := by
        rw [hx]; exact List.count_cons_self _ _
      rw [e, c, List.length_cons]
      omega
    · have e : (x :: xs).filter (fun x => decide (x ≠ 0))
          = x :: xs.filter (fun x => decide (x ≠ 0)) := by
        rw [List.filter_cons]; simp [hx]
      have c : (x :: xs).count 0 = xs.count 0 := by
        rw [List.count_cons]; simp [hx]
      rw [e, c, List.length_cons, List.length_cons]
      omega

theorem count_zero_filter_ne_zero (S : List Int) :
    (S.filter (fun x => decide (x ≠ 0))).count 0 = 0 := by
  rw [List.count_eq_zero]
  intro h
  have := (List.mem_filter.mp h).2
  simp at this

/-- The result of `zerosToEnd` is a permutation of its argument. -/
theorem zerosToEnd_result_perm (S : List Int) :
    (S.filter (fun x => decide (x ≠ 0))
      ++ List.replicate (S.length - (S.filter (fun x => decide (x ≠ 0))).length) 0).Perm S := by
  rw [length_sub_length_filter_ne_zero, List.perm_iff_count]
  intro a
  rw [List.count_append, List.count_replicate]
  by_cases ha : a = 0
  · subst ha
    rw [count_zero_filter_ne_zero]
    simp
  · have hb : ¬ ((0 : Int) == a) = true := by
      simp only [beq_iff_eq]
      exact fun h => ha h.symm
    rw [if_neg hb, Nat.add_zero]
    exact List.count_filter (by simpa using ha)

/-! ## Claims about zerosToEnd -/

/-- C11: for every sequence `S` of integers, after `zerosToEnd(S)` the
sequence is the subsequence of the non-zero elements of `S` in their original
relative order, followed by zeros only: every position from the count of
non-zero elements to the end holds `0`. -/
theorem zerosToEnd_nonzeros_then_zeros (S : List Int) :
    ∃ out, zerosToEnd S = some out
      ∧ out = S.filter (fun x => decide (x ≠ 0))
          ++ List.replicate (S.length - (S.filter (fun x => decide (x ≠ 0))).length) 0
      ∧ out.take (S.filter (fun x => decide (x ≠ 0))).length
          = S.filter (fun x => decide (x ≠ 0))
      ∧ ∀ i, (S.filter (fun x => decide (x ≠ 0))).length ≤ i → i < out.length →
          out[i]? = some 0 := by
  refine ⟨_, zerosToEnd_eq S, rfl, List.take_left _ _, ?_⟩
  intro i h1 h2
  rw [List.getElem?_append_right h1]
  simp only [List.length_append, List.length_replicate] at h2
  rw [List.getElem?_replicate_of_lt (by omega)]

/-- C12: for every sequence `S` of integers, `zerosToEnd(S)` leaves the length
of the sequence unchanged and preserves the number of zero elements, and the
output is a permutation of the input. -/
theorem zerosToEnd_length_count_perm (S : List Int) :
    ∃ out, zerosToEnd S = some out
      ∧ out.length = S.length
      ∧ out.count 0 = S.count 0
      ∧ out.Perm S := by
  have hp := zerosToEnd_result_perm S
  exact ⟨_, zerosToEnd_eq S, hp.length_eq, hp.count_eq 0, hp⟩

/-- C20: `zerosToEnd` is idempotent: for every sequence `S` of integers,
applying `zerosToEnd` to the sequence left by a first application leaves it
unchanged. -/
theorem zerosToEnd_idempotent (S : List Int) :
    ∃ out, zerosToEnd S = some out ∧ zerosToEnd out = some out := by
  refine ⟨_, zerosToEnd_eq S, ?_⟩
  rw [zerosToEnd_eq]
  have hf : (S.filter (fun x => decide (x ≠ 0))
        ++ List.replicate (S.length - (S.filter (fun x => decide (x ≠ 0))).length) 0).filter
          (fun x => decide (x ≠ 0))
      = S.filter (fun x => decide (x ≠ 0)) := by
    rw [List.filter_append, List.filter_filter, List.filter_replicate]
    simp
  have hl : (S.filter (fun x => decide (x ≠ 0))
        ++ List.replicate (S.length - (S.filter (fun x => decide (x ≠ 0))).length) 0).length
      = S.length := (zerosToEnd_result_perm S).length_eq
  rw [hf, hl]

/-! ## bubbleSort: one pass -/

theorem getElem?_append_cons_self {α : Type} (pre : List α) (a : α) (X : List α) :
    (pre ++ a :: X)[pre.length]? = some a := by
  rw [List.getElem?_append_right (le_refl _)]
  simp

theorem getElem?_append_cons_succ {α : Type} (pre : List α) (a b : α) (X : List α) :
    (pre ++ a :: b :: X)[pre.length + 1]? = some b := by
  rw [List.getElem?_append_right (by omega)]
  simp

theorem set_set_append_swap {α : Type} (pre : List α) (a b : α) (X : List α) :
    ((pre ++ a :: b :: X).set pre.length b).set (pre.length + 1) a = pre ++ b :: a :: X := by
  induction pre with
  | nil => simp
  | cons p pre ih => simp [ih]

/-- The inner loop as a function on lists.  Started at `j = pre.length` on
`pre ++ a :: (mid ++ tail)` with `mid.length` comparisons left, it carries `a`
through `mid` and touches neither `pre` nor `tail`. -/
theorem bubbleSortInnerLoop_spec {α : Type} (key : α → Int) (arrLen i : Nat) (mid : List α) :
    ∀ (fuel : Nat) (pre : List α) (a : α) (tail : List α) (swapped : Bool) (swaps : Nat),
      ((pre.length + mid.length : Nat) : Int) = (arrLen : Int) - 1 - (i : Int) →
      mid.length ≤ fuel →
      bubbleSortInnerLoop key arrLen i fuel (pre ++ a :: (mid ++ tail)) swapped swaps pre.length
        = some (pre ++ (bubbleUp key a mid ++ tail),
            swapped || decide (0 < bubbleUpSwaps key a mid),
            swaps + bubbleUpSwaps key a mid) := by
  induction mid with
  | nil =>
    intro fuel pre a tail swapped swaps hb _
    unfold bubbleSortInnerLoop
    have hc : ¬ ((pre.length : Int) < (arrLen : Int) - 1 - (i : Int)) := by
      simp only [List.length_nil, Nat.add_zero] at hb
      omega
    simp [hc, bubbleUp, bubbleUpSwaps]
  | cons b mid ih =>
    intro fuel pre a tail swapped swaps hb hfuel
    simp only [List.length_cons] at hb hfuel
    obtain ⟨fuel, rfl⟩ : ∃ f, fuel = f + 1 := ⟨fuel - 1, by omega⟩
    unfold bubbleSortInnerLoop
    have hc : (pre.length : Int) < (arrLen : Int) - 1 - (i : Int) := by omega
    simp only [hc, if_true, List.cons_append, getElem?_append_cons_self,
      getElem?_append_cons_succ]
    by_cases hgt : key a > key b
    · simp only [hgt, if_true, set_set_append_swap]
      have step := ih fuel (pre ++ [b]) a tail true (swaps + 1)
        (by simp only [List.length_append, List.length_singleton]; omega) (by omega)
      simp only [List.length_append, List.length_singleton, List.append_assoc,
        List.singleton_append] at step
      rw [step]
      simp only [bubbleUp, bubbleUpSwaps, hgt, if_true, List.cons_append]
      simp
      omega
    · simp only [hgt, if_false]
      have step := ih fuel (pre ++ [a]) b tail swapped swaps
        (by simp only [List.length_append, List.length_singleton]; omega) (by omega)
      simp only [List.length_append, List.length_singleton, List.append_assoc,
        List.singleton_append] at step
      rw [step]
      simp only [bubbleUp, bubbleUpSwaps, hgt, if_false, List.cons_append]

theorem bubbleUp_length {α : Type} (key : α → Int) (mid : List α) :
    ∀ a : α, (bubbleUp key a mid).length = mid.length + 1 := by
  induction mid with
  | nil => intro a; simp [bubbleUp]
  | cons b mid ih =>
    intro a
    unfold bubbleUp
    by_cases hgt : key a > key b
    · simp [hgt, ih]
    · simp [hgt, ih]

theorem bubbleUp_perm {α : Type} (key : α → Int) (mid : List α) :
    ∀ a : α, (bubbleUp key a mid).Perm (a :: mid) := by
  induction mid with
  | nil => intro a; simp [bubbleUp]
  | cons b mid ih =>
    intro a
    unfold bubbleUp
    by_cases hgt : key a > key b
    · simp only [hgt, if_true]
      exact ((ih a).cons b).trans (List.Perm.swap a b mid)
    · simp only [hgt, if_false]
      exact (ih b).cons a

/-- One pass moves an element of greatest value to the end. -/
theorem bubbleUp_last_max {α : Type} (key : α → Int) (mid : List α) :
    ∀ a : α, ∃ (init : List α) (m : α), bubbleUp key a mid = init ++ [m]
      ∧ (∀ x ∈ init, key x ≤ key m) ∧ key a ≤ key m := by
  induction mid with
  | nil => intro a; exact ⟨[], a, by simp [bubbleUp], by simp, le_refl _⟩
  | cons b mid ih =>
    intro a
    unfold bubbleUp
    by_cases hgt : key a > key b
    · obtain ⟨init, m, e, h1, h2⟩ := ih a
      refine ⟨b :: init, m, by simp [hgt, e], ?_, h2⟩
      intro x hx
      rcases List.mem_cons.mp hx with hx | hx
      · rw [hx]; omega
      · exact h1 x hx
    · obtain ⟨init, m, e, h1, h2⟩ := ih b
      refine ⟨a :: init, m, by simp [hgt, e], ?_, by omega⟩
      intro x hx
      rcases List.mem_cons.mp hx with hx | hx
      · rw [hx]; omega
      · exact h1 x hx

/-- One pass keeps the elements of each value in their order: a swap only
exchanges two elements of different values. -/
theorem bubbleUp_filter_key {α : Type} (key : α → Int) (c : Int) (mid : List α) :
    ∀ a : α, (bubbleUp key a mid).filter (fun x => decide (key x = c))
      = (a :: mid).filter (fun x => decide (key x = c)) := by
  induction mid with
  | nil => intro a; simp [bubbleUp]
  | cons b mid ih =>
    intro a
    unfold bubbleUp
    by_cases hgt : key a > key b
    · simp only [hgt, if_true]
      rw [List.filter_cons, ih a]
      by_cases ha : key a = c
      · have hb : ¬ (key b = c) := by omega
        simp [List.filter_cons, ha, hb]
      · simp [List.filter_cons, ha]
    · simp only [hgt, if_false]
      rw [List.filter_cons, ih b]
      simp [List.filter_cons]

/-- A pass without a swap has seen a sorted list. -/
theorem pairwise_of_bubbleUpSwaps_eq_zero {α : Type} (key : α → Int) (mid : List α) :
    ∀ a : α, bubbleUpSwaps key a mid = 0 →
      (a :: mid).Pairwise (fun x y => key x ≤ key y) := by
  induction mid with
  | nil => intro a _; simp
  | cons b mid ih =>
    intro a h
    unfold bubbleUpSwaps at h
    by_cases hgt : key a > key b
    · simp [hgt] at h
    · simp only [hgt, if_false] at h
      have hb := ih b h
      refine List.pairwise_cons.mpr ⟨?_, hb⟩
      intro y hy
      rcases List.mem_cons.mp hy with hy | hy
      · rw [hy]; omega
      · have := (List.pairwise_cons.mp hb).1 y hy
        omega

/-- On a sorted list a pass swaps nothing and changes nothing. -/
theorem bubbleUp_of_pairwise {α : Type} (key : α → Int) (mid : List α) :
    ∀ a : α, (a :: mid).Pairwise (fun x y => key x ≤ key y) →
      bubbleUp key a mid = a :: mid ∧ bubbleUpSwaps key a mid = 0 := by
  induction mid with
  | nil => intro a _; simp [bubbleUp, bubbleUpSwaps]
  | cons b mid ih =>
    intro a h
    have hab : key a ≤ key b := (List.pairwise_cons.mp h).1 b (List.mem_cons_self _ _)
    have hgt : ¬ (key a > key b) := by omega
    obtain ⟨e1, e2⟩ := ih b (List.pairwise_cons.mp h).2
    unfold bubbleUp bubbleUpSwaps
    simp [hgt, e1, e2]

/-! ## bubbleSort: the passes -/

/-- Pass `i` on an array whose first part is `a :: mid` and whose last `i`
positions are `T`: the inner loop carries `a` through `mid` and leaves `T`
alone. -/
theorem bubbleSortInnerLoop_pass {α : Type} (key : α → Int) (a : α) (mid T : List α) :
    bubbleSortInnerLoop key (mid.length + 1 + T.length) T.length (mid.length + 1 + T.length)
        (a :: (mid ++ T)) false 0 0
      = some (bubbleUp key a mid ++ T, decide (0 < bubbleUpSwaps key a mid),
          bubbleUpSwaps key a mid) := by
  have h := bubbleSortInnerLoop_spec key (mid.length + 1 + T.length) T.length mid
    (mid.length + 1 + T.length) [] a T false 0
    (by simp only [List.length_nil]; omega) (by omega)
  simp only [List.length_nil, List.nil_append, Bool.false_or, Nat.zero_add] at h
  exact h

/-- On a sorted array every pass of the loop without the early exit changes
nothing. -/
theorem bubbleSortAllPassesLoop_of_pairwise {α : Type} (key : α → Int) (n : Nat) (fuel : Nat) :
    ∀ (arr : List α) (i : Nat), arr.length = n → n - 1 - i ≤ fuel →
      arr.Pairwise (fun x y => key x ≤ key y) →
      bubbleSortAllPassesLoop key n fuel arr i = some arr := by
  induction fuel with
  | zero =>
    intro arr i _ hfuel _
    have hc : ¬ ((i : Int) < (n : Int) - 1) := by omega
    unfold bubbleSortAllPassesLoop
    simp [hc]
  | succ fuel ih =>
    intro arr i hlen hfuel hs
    unfold bubbleSortAllPassesLoop
    by_cases hc : (i : Int) < (n : Int) - 1
    · simp only [hc, if_true]
      have hsplit : arr.take (n - i) ++ arr.drop (n - i) = arr := List.take_append_drop _ _
      have hl1 : (arr.take (n - i)).length = n - i := by
        rw [List.length_take]; omega
      have hl2 : (arr.drop (n - i)).length = i := by
        rw [List.length_drop]; omega
      match hP : arr.take (n - i), hl1 with
      | [], hl1 => simp only [List.length_nil] at hl1; omega
      | a :: mid, hl1 =>
        simp only [List.length_cons] at hl1
        rw [hP] at hsplit
        have hn : n = mid.length + 1 + (arr.drop (n - i)).length := by omega
        have hpass := bubbleSortInnerLoop_pass key a mid (arr.drop (n - i))
        rw [← hn, hl2, ← List.cons_append, hsplit] at hpass
        have hsP : (a :: mid).Pairwise (fun x y => key x ≤ key y) := by
          rw [← hsplit] at hs
          exact (List.pairwise_append.mp hs).1
        rw [(bubbleUp_of_pairwise key mid a hsP).1, hsplit] at hpass
        rw [hpass]
        exact ih arr (i + 1) hlen (by omega) hs
    · simp [hc]

/-- Invariant of the outer loop, in closed form.  Before pass `i` the array is
`P ++ T`, where the last `i` positions `T` are sorted and hold values not
smaller than those of `P`.  Then the loop returns; the final array is sorted,
is a permutation of `P ++ T` and keeps the elements of each value in their
order; and the `k`-th recorded pass left an array whose last `i + k + 1`
positions are sorted and not smaller than the positions before them, and
which is sorted as a whole when the pass made no swap.  The loop without the
early exit returns the same final array.  At least one pass is recorded when
`i + 1 < n`. -/
theorem bubbleSortOuterLoop_spec {α : Type} (key : α → Int) (n : Nat) (fuel : Nat) :
    ∀ (P T : List α) (i : Nat), P.length + T.length = n → T.length = i → n - 1 - i ≤ fuel →
      T.Pairwise (fun x y => key x ≤ key y) →
      (∀ p ∈ P, ∀ t ∈ T, key p ≤ key t) →
      ∃ (out : List α) (passes : List (List α × Nat)),
        bubbleSortOuterLoop key n fuel (P ++ T) i = some (out, passes)
        ∧ out.Pairwise (fun x y => key x ≤ key y)
        ∧ out.Perm (P ++ T)
        ∧ (∀ c : Int, out.filter (fun x => decide (key x = c))
            = (P ++ T).filter (fun x => decide (key x = c)))
        ∧ (∀ (k : Nat) (arr : List α) (s : Nat), passes[k]? = some (arr, s) →
            arr.Perm (P ++ T)
            ∧ (∃ P1 T1 : List α, arr = P1 ++ T1 ∧ T1.length = i + k + 1
                ∧ T1.Pairwise (fun x y => key x ≤ key y)
                ∧ (∀ p ∈ P1, ∀ t ∈ T1, key p ≤ key t))
            ∧ (s = 0 → arr.Pairwise (fun x y => key x ≤ key y)))
        ∧ bubbleSortAllPassesLoop key n fuel (P ++ T) i = some out
        ∧ (i + 1 < n → passes ≠ []) := by
  induction fuel with
  | zero =>
    intro P T i hlen hT hfuel hsT hPT
    have hP : P.length ≤ 1 := by omega
    have hc : ¬ ((i : Int) < (n : Int) - 1) := by omega
    refine ⟨P ++ T, [], ?_, ?_, List.Perm.refl _, fun _ => rfl, ?_, ?_, ?_⟩
    · unfold bubbleSortOuterLoop
      simp [hc]
    · refine List.pairwise_append.mpr ⟨?_, hsT, hPT⟩
      match P, hP with
      | [], _ => exact List.Pairwise.nil
      | [p], _ => exact List.pairwise_singleton _ _
    · intro k arr s h
      simp at h
    · unfold bubbleSortAllPassesLoop
      simp [hc]
    · intro h
      omega
  | succ fuel ih =>
    intro P T i hlen hT hfuel hsT hPT
    by_cases hc : (i : Int) < (n : Int) - 1
    · match P, hlen, hPT with
      | [], hlen, _ => simp only [List.length_nil] at hlen; omega
      | a :: mid, hlen, hPT =>
        simp only [List.length_cons] at hlen
        have hn : n = mid.length + 1 + T.length := by omega
        obtain ⟨init, m, hbu, hinit, _⟩ := bubbleUp_last_max key mid a
        have hperm : (bubbleUp key a mid).Perm (a :: mid) := bubbleUp_perm key mid a
        have hmemP : ∀ x ∈ bubbleUp key a mid, x ∈ a :: mid := fun x hx => hperm.subset hx
        have hm : m ∈ a :: mid := hmemP m (by rw [hbu]; simp)
        have harr1 : bubbleUp key a mid ++ T = init ++ m :: T := by rw [hbu]; simp
        have hperm1 : (bubbleUp key a mid ++ T).Perm (a :: mid ++ T) := hperm.append_right T
        have hfilt1 : ∀ c : Int, (bubbleUp key a mid ++ T).filter (fun x => decide (key x = c))
            = (a :: mid ++ T).filter (fun x => decide (key x = c)) := by
          intro c
          rw [List.filter_append, bubbleUp_filter_key, ← List.filter_append]
        have hsT1 : (m :: T).Pairwise (fun x y => key x ≤ key y) :=
          List.pairwise_cons.mpr ⟨fun t ht => hPT m hm t ht, hsT⟩
        have hPT1 : ∀ p ∈ init, ∀ t ∈ m :: T, key p ≤ key t := by
          intro p hp t ht
          rcases List.mem_cons.mp ht with ht | ht
          · rw [ht]; exact hinit p hp
          · exact hPT p (hmemP p (by rw [hbu]; simp [hp])) t ht
        have hdec : ∃ P1 T1 : List α, bubbleUp key a mid ++ T = P1 ++ T1
            ∧ T1.length = i + 0 + 1 ∧ T1.Pairwise (fun x y => key x ≤ key y)
            ∧ (∀ p ∈ P1, ∀ t ∈ T1, key p ≤ key t) :=
          ⟨init, m :: T, harr1, by simp [hT], hsT1, hPT1⟩
        have hlen1 : (bubbleUp key a mid ++ T).length = n := by
          rw [List.length_append, bubbleUp_length]; omega
        unfold bubbleSortOuterLoop bubbleSortAllPassesLoop
        simp only [hc, if_true]
        have hpass := bubbleSortInnerLoop_pass key a mid T
        rw [← hn, hT] at hpass
        rw [List.cons_append, hpass]
        by_cases hsw : bubbleUpSwaps key a mid = 0
        · have hsP := pairwise_of_bubbleUpSwaps_eq_zero key mid a hsw
          have hsame := (bubbleUp_of_pairwise key mid a hsP).1
          have hsorted : (bubbleUp key a mid ++ T).Pairwise (fun x y => key x ≤ key y) := by
            rw [hsame]
            exact List.pairwise_append.mpr ⟨hsP, hsT, hPT⟩
          simp only [hsw, Nat.lt_irrefl, decide_False, Bool.not_false, if_true]
          refine ⟨_, _, rfl, hsorted, hperm1, hfilt1, ?_, ?_, fun _ => List.cons_ne_nil _ _⟩
          · intro k arr s h
            match k, h with
            | 0, h =>
              simp only [List.getElem?_cons_zero, Option.some.injEq, Prod.mk.injEq] at h
              obtain ⟨h1, h2⟩ := h
              subst h1
              exact ⟨hperm1, hdec, fun _ => hsorted⟩
            | k + 1, h => simp at h
          · exact bubbleSortAllPassesLoop_of_pairwise key n fuel _ (i + 1) hlen1 (by omega)
              hsorted
        · have hpos : 0 < bubbleUpSwaps key a mid := Nat.pos_of_ne_zero hsw
          simp only [hpos, decide_True, Bool.not_true, Bool.false_eq_true, if_false]
          obtain ⟨out, passes, e, hso, hpo, hfo, hpasses, hall, _⟩ := ih init (m :: T) (i + 1)
            (by have := bubbleUp_length key mid a
                rw [hbu] at this
                simp only [List.length_append, List.length_cons, List.length_nil] at this ⊢
                omega)
            (by simp [hT]) (by omega) hsT1 hPT1
          rw [harr1, e]
          rw [← harr1] at hpo hfo hpasses
          refine ⟨out, _, rfl, hso, hpo.trans hperm1, fun c => (hfo c).trans (hfilt1 c), ?_,
            hall, fun _ => List.cons_ne_nil _ _⟩
          intro k arr s h
          match k, h with
          | 0, h =>
            simp only [List.getElem?_cons_zero, Option.some.injEq, Prod.mk.injEq] at h
            obtain ⟨h1, h2⟩ := h
            rw [← harr1] at h1
            subst h1
            exact ⟨hperm1, hdec, fun h0 => absurd (h2 ▸ h0) hsw⟩
          | k + 1, h =>
            simp only [List.getElem?_cons_succ] at h
            obtain ⟨g1, ⟨P1, T1, g2, g3, g4, g5⟩, g6⟩ := hpasses k arr s h
            exact ⟨g1.trans hperm1, ⟨P1, T1, g2, by omega, g4, g5⟩, g6⟩
    · have hP : P.length ≤ 1 := by omega
      refine ⟨P ++ T, [], ?_, ?_, List.Perm.refl _, fun _ => rfl, ?_, ?_, ?_⟩
      · unfold bubbleSortOuterLoop
        simp [hc]
      · refine List.pairwise_append.mpr ⟨?_, hsT, hPT⟩
        match P, hP with
        | [], _ => exact List.Pairwise.nil
        | [p], _ => exact List.pairwise_singleton _ _
      · intro k arr s h
        simp at h
      · unfold bubbleSortAllPassesLoop
        simp [hc]
      · intro h
        omega

/-- The facts of `bubbleSortOuterLoop_spec` for a whole call. -/
theorem bubbleSortBy_spec {α : Type} (key : α → Int) (S : List α) :
    ∃ (out : List α) (passes : List (List α × Nat)),
      bubbleSortBy key S = some (out, passes)
      ∧ out.Pairwise (fun x y => key x ≤ key y)
      ∧ out.Perm S
      ∧ (∀ c : Int, out.filter (fun x => decide (key x = c))
          = S.filter (fun x => decide (key x = c)))
      ∧ (∀ (k : Nat) (arr : List α) (s : Nat), passes[k]? = some (arr, s) →
          arr.Perm S
          ∧ (∃ P1 T1 : List α, arr = P1 ++ T1 ∧ T1.length = k + 1
              ∧ T1.Pairwise (fun x y => key x ≤ key y)
              ∧ (∀ p ∈ P1, ∀ t ∈ T1, key p ≤ key t))
          ∧ (s = 0 → arr.Pairwise (fun x y => key x ≤ key y)))
      ∧ bubbleSortAllPassesLoop key S.length S.length S 0 = some out
      ∧ (2 ≤ S.length → passes ≠ []) := by
  have h := bubbleSortOuterLoop_spec key S.length S.length S [] 0 (by simp) rfl (by omega)
    List.Pairwise.nil (by intro p _ t ht; simp at ht)
  simp only [List.append_nil, Nat.zero_add] at h
  obtain ⟨out, passes, h1, h2, h3, h4, h5, h6, h7⟩ := h
  exact ⟨out, passes, h1, h2, h3, h4, h5, h6, fun hl => h7 (by omega)⟩

/-- The call on an array that is already sorted. -/
theorem bubbleSortBy_of_pairwise {α : Type} (key : α → Int) (S : List α)
    (hs : S.Pairwise (fun x y => key x ≤ key y)) :
    bubbleSortBy key S = some (S, if 2 ≤ S.length then [(S, 0)] else []) := by
  unfold bubbleSortBy bubbleSortOuterLoop
  match S, hs with
  | [], _ => simp
  | [a], _ => simp
  | a :: b :: rest, hs =>
    have hc : ((0 : Nat) : Int) < (((a :: b :: rest).length : Nat) : Int) - 1 := by
      simp only [List.length_cons]; omega
    have hpass := bubbleSortInnerLoop_pass key a (b :: rest) []
    simp only [List.length_cons, List.length_nil, Nat.add_zero, List.append_nil] at hpass
    obtain ⟨e1, e2⟩ := bubbleUp_of_pairwise key (b :: rest) a hs
    rw [e1, e2] at hpass
    simp only [hc, if_true, List.length_cons]
    rw [hpass]
    simp

/-- The sorted list of `S`, split at a tail that is already settled. -/
theorem insertionSort_eq_of_settled (S arr P1 T1 : List Int) (hperm : arr.Perm S)
    (harr : arr = P1 ++ T1) (hsT : T1.Pairwise (fun x y => x ≤ y))
    (hPT : ∀ p ∈ P1, ∀ t ∈ T1, p ≤ t) :
    S.insertionSort (· ≤ ·) = P1.insertionSort (· ≤ ·) ++ T1 := by
  apply List.eq_of_perm_of_sorted (r := (· ≤ ·))
  · refine (List.perm_insertionSort _ S).trans (hperm.symm.trans ?_)
    rw [harr]
    exact (List.perm_insertionSort _ P1).symm.append_right T1
  · exact List.sorted_insertionSort _ S
  · refine List.pairwise_append.mpr ⟨List.sorted_insertionSort _ P1, hsT, ?_⟩
    intro p hp t ht
    exact hPT p ((List.perm_insertionSort _ P1).mem_iff.mp hp) t ht

/-! ## removeDuplicates: the states of the scan -/

/-- The loop function runs `removeDuplicatesStep` until it yields `none`. -/
theorem removeDuplicatesLoop_succ (fuel : Nat) (arr : List Int) (w r : Nat) :
    removeDuplicatesLoop (fuel + 1) arr w r
      = match removeDuplicatesStep arr w r with
        | none => some (arr, w)
        | some (arr1, w1, r1) => removeDuplicatesLoop fuel arr1 w1 r1 := by
  rw [removeDuplicatesLoop]
  unfold removeDuplicatesStep
  by_cases h : r < arr.length
  · by_cases hx : arr[r] = arr[r - 1]
    · simp [h, hx]
    · simp [h, hx]
  · simp [h]

theorem removeDuplicatesStep_length (arr : List Int) (w r : Nat) (arr1 : List Int)
    (w1 r1 : Nat) (h : removeDuplicatesStep arr w r = some (arr1, w1, r1)) :
    arr1.length = arr.length ∧ r1 = r + 1 ∧ r < arr.length := by
  unfold removeDuplicatesStep at h
  by_cases hr : r < arr.length
  · by_cases hx : arr[r] = arr[r - 1]
    · simp only [hr, dite_true, hx, ne_eq, not_true_eq_false, if_false, Option.some.injEq,
        Prod.mk.injEq] at h
      obtain ⟨h1, _, h3⟩ := h
      subst h1
      exact ⟨rfl, h3.symm, hr⟩
    · simp only [hr, dite_true, ne_eq, hx, not_false_eq_true, if_true, Option.some.injEq,
        Prod.mk.injEq] at h
      obtain ⟨h1, _, h3⟩ := h
      subst h1
      exact ⟨by simp, h3.symm, hr⟩
  · simp [hr] at h

/-- Invariant of the scan: the write cursor does not pass the read cursor, and
from position `readIndex - 1` on the array still holds the original values. -/
theorem removeDuplicatesStateAfter_inv (S : List Int) (n : Nat) :
    ∀ (arr : List Int) (w r : Nat), removeDuplicatesStateAfter S n = some (arr, w, r) →
      1 ≤ w ∧ w ≤ r ∧ arr.length = S.length ∧ ∀ j, r - 1 ≤ j → arr[j]? = S[j]? := by
  induction n with
  | zero =>
    intro arr w r h
    simp only [removeDuplicatesStateAfter, Option.some.injEq, Prod.mk.injEq] at h
    obtain ⟨h1, h2, h3⟩ := h
    subst h1 h2 h3
    exact ⟨le_refl _, le_refl _, rfl, fun _ _ => rfl⟩
  | succ n ih =>
    intro arr w r h
    simp only [removeDuplicatesStateAfter] at h
    match hprev : removeDuplicatesStateAfter S n, h with
    | some (arr0, w0, r0), h =>
      obtain ⟨i1, i2, i3, i4⟩ := ih arr0 w0 r0 hprev
      simp only at h
      unfold removeDuplicatesStep at h
      by_cases hr : r0 < arr0.length
      · by_cases hx : arr0[r0] = arr0[r0 - 1]
        · simp only [hr, dite_true, hx, ne_eq, not_true_eq_false, if_false, Option.some.injEq,
            Prod.mk.injEq] at h
          obtain ⟨h1, h2, h3⟩ := h
          subst h1 h2 h3
          exact ⟨i1, by omega, i3, fun j hj => i4 j (by omega)⟩
        · simp only [hr, dite_true, ne_eq, hx, not_false_eq_true, if_true, Option.some.injEq,
            Prod.mk.injEq] at h
          obtain ⟨h1, h2, h3⟩ := h
          subst h1 h2 h3
          refine ⟨by omega, by omega, by simp [i3], ?_⟩
          intro j hj
          simp only [Nat.add_sub_cancel] at hj
          rw [List.getElem?_set]
          by_cases hwj : w0 = j
          · have hjr : j = r0 := by omega
            subst hwj
            simp only [if_true, hr, hjr]
            rw [← i4 r0 (by omega), List.getElem?_eq_getElem hr]
          · simp only [hwj, if_false]
            exact i4 j (by omega)
      · simp [hr] at h

/-- The loop ends in one of the states of the scan, and returns its array and
write cursor. -/
theorem removeDuplicatesLoop_eq_stateAfter (S : List Int) (fuel : Nat) :
    ∀ (n : Nat) (arr : List Int) (w r : Nat),
      removeDuplicatesStateAfter S n = some (arr, w, r) → arr.length - r ≤ fuel →
      ∃ (k : Nat) (arr1 : List Int) (w1 r1 : Nat),
        removeDuplicatesStateAfter S k = some (arr1, w1, r1)
        ∧ removeDuplicatesStep arr1 w1 r1 = none
        ∧ removeDuplicatesLoop fuel arr w r = some (arr1, w1) := by
  induction fuel with
  | zero =>
    intro n arr w r h hfuel
    have hr : ¬ r < arr.length := by omega
    refine ⟨n, arr, w, r, h, ?_, ?_⟩
    · unfold removeDuplicatesStep; simp [hr]
    · unfold removeDuplicatesLoop; simp [hr]
  | succ fuel ih =>
    intro n arr w r h hfuel
    rw [removeDuplicatesLoop_succ]
    match hstep : removeDuplicatesStep arr w r with
    | none => exact ⟨n, arr, w, r, h, hstep, rfl⟩
    | some (arr1, w1, r1) =>
      obtain ⟨l1, l2, l3⟩ := removeDuplicatesStep_length arr w r arr1 w1 r1 hstep
      have hnext : removeDuplicatesStateAfter S (n + 1) = some (arr1, w1, r1) := by
        simp only [removeDuplicatesStateAfter, h, hstep]
      exact ih (n + 1) arr1 w1 r1 hnext (by omega)

theorem keepChanges_eq_filterMap (xs : List Int) :
    ∀ prev : Int, keepChanges prev xs
      = (List.range xs.length).filterMap
          (fun i => if xs[i]? ≠ (prev :: xs)[i]? then xs[i]? else none) := by
  induction xs with
  | nil => intro prev; simp [keepChanges]
  | cons y ys ih =>
    intro prev
    rw [List.length_cons, List.range_succ_eq_map, List.filterMap_cons, List.filterMap_map]
    have hrest : ((fun i => if (y :: ys)[i]? ≠ (prev :: y :: ys)[i]? then (y :: ys)[i]?
          else none) ∘ Nat.succ)
        = (fun i => if ys[i]? ≠ (y :: ys)[i]? then ys[i]? else none) := by
      funext i
      simp
    rw [hrest, ← ih y]
    by_cases hy : y = prev
    · simp [keepChanges, hy]
    · simp [keepChanges, hy]

theorem keepDifferentFromPrevious_cons (x : Int) (xs : List Int) :
    keepDifferentFromPrevious (x :: xs) = x :: keepChanges x xs := by
  unfold keepDifferentFromPrevious
  rw [List.length_cons, List.range_succ_eq_map, List.filterMap_cons, List.filterMap_map]
  have hrest : ((fun i => if i = 0 ∨ (x :: xs)[i]? ≠ (x :: xs)[i - 1]? then (x :: xs)[i]?
        else none) ∘ Nat.succ)
      = (fun i => if xs[i]? ≠ (x :: xs)[i]? then xs[i]? else none) := by
    funext i
    simp
  rw [hrest, ← keepChanges_eq_filterMap xs x]
  simp

theorem set_getElem_same (arr : List Int) (r : Nat) (h : r < arr.length) :
    arr.set r (arr.get ⟨r, h⟩) = arr := by
  apply List.ext_getElem?
  intro j
  rw [List.getElem?_set]
  by_cases hj : r = j
  · subst hj
    simp [h, List.getElem?_eq_getElem h]
  · simp [hj]

theorem chain_ne_keepChanges (xs : List Int) :
    ∀ prev : Int, List.Chain (fun a b => a ≠ b) prev (keepChanges prev xs) := by
  induction xs with
  | nil => intro prev; simp [keepChanges]
  | cons y ys ih =>
    intro prev
    unfold keepChanges
    by_cases hy : y = prev
    · simp only [hy, ne_eq, not_true_eq_false, if_false]
      exact ih prev
    · simp only [ne_eq, hy, not_false_eq_true, if_true]
      exact List.Chain.cons (fun h => hy h.symm) (ih y)

/-! ## Further claims about removeDuplicates -/

/-- C17: for every non-empty sequence `S`, sorted or not, the in-place scan of
`removeDuplicates` compares `S[read]` against the original value at position
`read - 1`: in every state of the loop the write cursor does not exceed the
read cursor and the array still holds the original values from position
`read - 1` on, and a write at the position of the read cursor rewrites the
value that is there.  The loop ends in such a state, and the result is the
pure function that keeps `S[0]` and every `S[i]`, `i ≥ 1`, different from the
original `S[i - 1]`; the output has no two equal adjacent elements. -/
theorem removeDuplicates_refines_keepDifferentFromPrevious (S : List Int) (hne : S ≠ []) :
    (∀ (n : Nat) (arr : List Int) (w r : Nat),
        removeDuplicatesStateAfter S n = some (arr, w, r) →
        1 ≤ w ∧ w ≤ r ∧ arr.length = S.length
        ∧ (∀ j, r - 1 ≤ j → arr[j]? = S[j]?)
        ∧ (w = r → ∀ h : r < arr.length, arr.set w (arr.get ⟨r, h⟩) = arr))
    ∧ (∃ (n : Nat) (arr : List Int) (w r : Nat),
        removeDuplicatesStateAfter S n = some (arr, w, r)
        ∧ removeDuplicatesStep arr w r = none
        ∧ removeDuplicates S = some (arr.take w, JsValue.number (w : Int)))
    ∧ removeDuplicates S
        = some (keepDifferentFromPrevious S,
            JsValue.number (((keepDifferentFromPrevious S).length : Nat) : Int))
    ∧ (keepDifferentFromPrevious S).Chain' (fun a b => a ≠ b) := by
  refine ⟨?_, ?_, ?_, ?_⟩
  · intro n arr w r h
    obtain ⟨i1, i2, i3, i4⟩ := removeDuplicatesStateAfter_inv S n arr w r h
    refine ⟨i1, i2, i3, i4, ?_⟩
    intro hwr hr
    subst hwr
    exact set_getElem_same arr w hr
  · have hlen : S.length ≠ 0 := fun h => hne (List.length_eq_zero.mp h)
    obtain ⟨k, arr1, w1, r1, e1, e2, e3⟩ := removeDuplicatesLoop_eq_stateAfter S S.length 0 S 1 1
      rfl (by omega)
    refine ⟨k, arr1, w1, r1, e1, e2, ?_⟩
    unfold removeDuplicates
    simp only [hlen, if_false, e3]
  · match S, hne with
    | x :: xs, _ =>
      rw [removeDuplicates_cons, keepDifferentFromPrevious_cons]
      simp
  · match S, hne with
    | x :: xs, _ =>
      rw [keepDifferentFromPrevious_cons]
      exact chain_ne_keepChanges xs x

theorem removeDuplicates_refines_keepDifferentFromPrevious_witness :
    ([3, 3, 1, 1, 3, 2] : List Int) ≠ [] ∧
    ((∀ (n : Nat) (arr : List Int) (w r : Nat),
        removeDuplicatesStateAfter [3, 3, 1, 1, 3, 2] n = some (arr, w, r) →
        1 ≤ w ∧ w ≤ r ∧ arr.length = ([3, 3, 1, 1, 3, 2] : List Int).length
        ∧ (∀ j, r - 1 ≤ j → arr[j]? = ([3, 3, 1, 1, 3, 2] : List Int)[j]?)
        ∧ (w = r → ∀ h : r < arr.length, arr.set w (arr.get ⟨r, h⟩) = arr))
    ∧ (∃ (n : Nat) (arr : List Int) (w r : Nat),
        removeDuplicatesStateAfter [3, 3, 1, 1, 3, 2] n = some (arr, w, r)
        ∧ removeDuplicatesStep arr w r = none
        ∧ removeDuplicates [3, 3, 1, 1, 3, 2] = some (arr.take w, JsValue.number (w : Int)))
    ∧ removeDuplicates [3, 3, 1, 1, 3, 2]
        = some (keepDifferentFromPrevious [3, 3, 1, 1, 3, 2],
            JsValue.number (((keepDifferentFromPrevious [3, 3, 1, 1, 3, 2]).length : Nat) : Int))
    ∧ (keepDifferentFromPrevious [3, 3, 1, 1, 3, 2]).Chain' (fun a b => a ≠ b)) :=
  ⟨by decide, removeDuplicates_refines_keepDifferentFromPrevious [3, 3, 1, 1, 3, 2] (by decide)⟩

/-! ## Claims about bubbleSort -/

/-- C13: for every sequence `S` of integers, after `bubbleSort(S)` the
sequence is in non-descending order: `S[j] ≤ S[j + 1]` for every adjacent pair
of positions. -/
theorem bubbleSort_sorted (S : List Int) :
    ∃ (out : List Int) (passes : List (List Int × Nat)),
      bubbleSort S = some (out, passes)
      ∧ out.Sorted (· ≤ ·)
      ∧ ∀ (j : Nat) (h : j + 1 < out.length),
          out.get ⟨j, Nat.lt_of_succ_lt h⟩ ≤ out.get ⟨j + 1, h⟩ := by
  obtain ⟨out, passes, e, hs, _⟩ := bubbleSortBy_spec (fun x : Int => x) S
  have hsorted : out.Sorted (· ≤ ·) := hs
  refine ⟨out, passes, e, hsorted, ?_⟩
  intro j h
  exact List.pairwise_iff_get.mp hsorted ⟨j, Nat.lt_of_succ_lt h⟩ ⟨j + 1, h⟩
    (by simp [Fin.lt_def])

/-- C14: for every sequence `S`, the sequence left by `bubbleSort(S)` is a
permutation of the input: it has the same length and the same multiset of
elements. -/
theorem bubbleSort_perm (S : List Int) :
    ∃ (out : List Int) (passes : List (List Int × Nat)),
      bubbleSort S = some (out, passes)
      ∧ out.Perm S
      ∧ out.length = S.length
      ∧ (out : Multiset Int) = (S : Multiset Int) := by
  obtain ⟨out, passes, e, _, hp, _⟩ := bubbleSortBy_spec (fun x : Int => x) S
  exact ⟨out, passes, e, hp, hp.length_eq, Multiset.coe_eq_coe.mpr hp⟩

/-- C15: `bubbleSort` is stable.  For every sequence of elements compared by a
key, the elements of each key appear in the output in the same relative order
as in the input. -/
theorem bubbleSortBy_stable {α : Type} (key : α → Int) (S : List α) :
    ∃ (out : List α) (passes : List (List α × Nat)),
      bubbleSortBy key S = some (out, passes)
      ∧ ∀ c : Int, out.filter (fun x => decide (key x = c))
          = S.filter (fun x => decide (key x = c)) := by
  obtain ⟨out, passes, e, _, _, hf, _⟩ := bubbleSortBy_spec key S
  exact ⟨out, passes, e, hf⟩

/-- C16, as the claim states it, fails: on the sorted sequence `[5]` (and on
the empty sequence) `bubbleSort` performs no pass at all. -/
theorem bubbleSort_sorted_singleton_no_pass :
    ([5] : List Int).Sorted (· ≤ ·)
    ∧ bubbleSort [5] = some ([5], [])
    ∧ bubbleSort [] = some ([], [])
    ∧ ¬ ∃ (out : List Int) (passes : List (List Int × Nat)),
        bubbleSort [5] = some (out, passes) ∧ passes.length = 1 := by
  refine ⟨by decide, by decide, by decide, ?_⟩
  rintro ⟨out, passes, h1, h2⟩
  have h3 : bubbleSort [5] = some ([5], []) := by decide
  rw [h3] at h1
  simp only [Option.some.injEq, Prod.mk.injEq] at h1
  rw [← h1.2] at h2
  simp at h2

/-- C16, amended: for every input sequence that is already in non-descending
order, `bubbleSort` performs zero swaps and leaves the sequence unchanged; it
performs exactly one pass of the outer loop when the sequence has at least two
elements, and no pass when it has fewer. -/
theorem bubbleSort_of_sorted (S : List Int) (hs : S.Sorted (· ≤ ·)) :
    bubbleSort S = some (S, if 2 ≤ S.length then [(S, 0)] else []) :=
  bubbleSortBy_of_pairwise (fun x : Int => x) S hs

theorem bubbleSort_of_sorted_witness :
    ([1, 2, 2, 5] : List Int).Sorted (· ≤ ·) ∧
    bubbleSort [1, 2, 2, 5]
      = some ([1, 2, 2, 5],
          if 2 ≤ ([1, 2, 2, 5] : List Int).length then [([1, 2, 2, 5], 0)] else []) :=
  ⟨by decide, bubbleSort_of_sorted [1, 2, 2, 5] (by decide)⟩

/-- C18: for every sequence `S` of length `n` and every pass `i` of
`bubbleSort` that is run (0-based), after that pass the last `i + 1` positions
of the array hold the `i + 1` largest elements of `S` in non-descending order,
each at its final sorted position: the array is a permutation of `S`, its last
`i + 1` positions are sorted, are not smaller than any position before them,
and coincide with the last `i + 1` positions of the sorted sequence and of the
final array.  At least one pass is run when `n ≥ 2`. -/
theorem bubbleSort_pass_settles_tail (S : List Int) :
    ∃ (out : List Int) (passes : List (List Int × Nat)),
      bubbleSort S = some (out, passes)
      ∧ (2 ≤ S.length → passes ≠ [])
      ∧ ∀ (i : Nat) (arr : List Int) (s : Nat), passes[i]? = some (arr, s) →
          arr.Perm S
          ∧ (arr.drop (S.length - (i + 1))).length = i + 1
          ∧ (arr.drop (S.length - (i + 1))).Sorted (· ≤ ·)
          ∧ (∀ x ∈ arr.take (S.length - (i + 1)), ∀ y ∈ arr.drop (S.length - (i + 1)), x ≤ y)
          ∧ arr.drop (S.length - (i + 1))
              = (S.insertionSort (· ≤ ·)).drop (S.length - (i + 1))
          ∧ arr.drop (S.length - (i + 1)) = out.drop (S.length - (i + 1)) := by
  obtain ⟨out, passes, e, hso, hpo, _, hpasses, _, hne⟩ :=
    bubbleSortBy_spec (fun x : Int => x) S
  refine ⟨out, passes, e, hne, ?_⟩
  intro i arr s h
  obtain ⟨hperm, ⟨P1, T1, harr, hT1, hsT1, hPT1⟩, _⟩ := hpasses i arr s h
  have hlen : P1.length + T1.length = S.length := by
    rw [← hperm.length_eq, harr, List.length_append]
  have hP1 : S.length - (i + 1) = P1.length := by omega
  have hdrop : arr.drop (S.length - (i + 1)) = T1 := by
    rw [hP1, harr]; exact List.drop_left _ _
  have htake : arr.take (S.length - (i + 1)) = P1 := by
    rw [hP1, harr]; exact List.take_left _ _
  have hsortS := insertionSort_eq_of_settled S arr P1 T1 hperm harr hsT1 hPT1
  have hout : out = S.insertionSort (· ≤ ·) :=
    List.eq_of_perm_of_sorted (hpo.trans (List.perm_insertionSort _ S).symm) hso
      (List.sorted_insertionSort _ S)
  have hdropS : (S.insertionSort (· ≤ ·)).drop (S.length - (i + 1)) = T1 := by
    rw [hsortS, hP1]
    exact List.drop_left' (List.length_insertionSort _ P1)
  rw [hdrop, htake, hout, hdropS]
  exact ⟨hperm, hT1, hsT1, hPT1, rfl, rfl⟩

/-- C19: the early exit of `bubbleSort` is sound.  For every sequence `S`,
whenever a pass performs zero swaps the whole array is in non-descending
order, and `bubbleSort` leaves exactly the sequence that the same algorithm
without the `if (!swapped) break` test leaves. -/
theorem bubbleSort_early_exit_sound (S : List Int) :
    ∃ (out : List Int) (passes : List (List Int × Nat)),
      bubbleSort S = some (out, passes)
      ∧ (∀ (i : Nat) (arr : List Int), passes[i]? = some (arr, 0) → arr.Sorted (· ≤ ·))
      ∧ bubbleSortAllPasses S = some out := by
  obtain ⟨out, passes, e, _, _, _, hpasses, hall, _⟩ := bubbleSortBy_spec (fun x : Int => x) S
  refine ⟨out, passes, e, ?_, hall⟩
  intro i arr h
  exact (hpasses i arr 0 h).2.2 rfl

/-! ## The demo call of bubbleSort -/

/-- On integers the final array is the sorted list of the input. -/
theorem bubbleSort_eq_insertionSort (S : List Int) :
    ∃ passes : List (List Int × Nat),
      bubbleSort S = some (S.insertionSort (· ≤ ·), passes) := by
  obtain ⟨out, passes, e, hso, hpo, _⟩ := bubbleSortBy_spec (fun x : Int => x) S
  have hout : out = S.insertionSort (· ≤ ·) :=
    List.eq_of_perm_of_sorted (hpo.trans (List.perm_insertionSort _ S).symm) hso
      (List.sorted_insertionSort _ S)
  exact ⟨passes, hout ▸ e⟩

theorem bubbleSort_demo_call :
    ∃ passes : List (List Int × Nat),
      bubbleSort [7, 12, 9, 11, 3, 2, 11, 6, 14, 1]
        = some ([1, 2, 3, 6, 7, 9, 11, 11, 12, 14], passes) := by
  have h : ([7, 12, 9, 11, 3, 2, 11, 6, 14, 1] : List Int).insertionSort (· ≤ ·)
      = [1, 2, 3, 6, 7, 9, 11, 11, 12, 14] := by decide
  rw [← h]
  exact bubbleSort_eq_insertionSort _

end DSA
